import Mathlib

/-
Shallow embedding of the CogniMap mind-map editor core (src/App.tsx,
src/services/aiService.ts, src/types.ts): the layout engine, the visibility
resolver, the tree-store mutation operations and the provider-response
handling, together with proofs of the behavioural properties claimed for
them.

JavaScript conventions captured explicitly:
* optional fields (`collapsed?`, `contentMinimized?`, `height?`, `data?`,
  `isLoading?`) are modelled with `Bool` (undefined = false) or `Option`;
* where the source branches on the truthiness of a possibly-absent or
  possibly-empty string, that truthiness test is made explicit
  (`truthyStr`): `undefined`, `null` and `""` are falsy, any other string
  is truthy; an array value (even an empty one) is truthy;
* unbounded recursion in the source is modelled with an explicit fuel
  parameter, instantiated at each call site with a bound that suffices for
  every input on which the source itself terminates.
-/

/- types.ts: Position -/
structure Position where
  x : Int
  y : Int
deriving DecidableEq, Repr

/- types.ts: NodeType -/
inductive NodeType where
  | root
  | chapter
  | subchapter
  | detail
deriving DecidableEq, Repr

/- types.ts: the `data` payload of a node -/
structure NodeContent where
  summary : Option String := none
  details : Option String := none
  bulletPoints : Option (List String) := none
  learningPoints : Option (List String) := none
deriving DecidableEq, Repr

/- types.ts: NodeData -/
structure NodeData where
  id : String
  parentId : Option String
  title : String
  position : Position
  level : Nat
  nodeType : NodeType
  collapsed : Bool
  contentMinimized : Bool
  height : Option Int
  isLoading : Bool
  data : Option NodeContent
deriving DecidableEq, Repr

/- JS truthiness of an optional string: undefined/null and "" are falsy. -/
def truthyStr (o : Option String) : Bool :=
  match o with
  | some s => decide (s ≠ "")
  | none => false

/- src/App.tsx: layout constants -/
def INDENT_X : Int := 80
def GAP_Y : Int := 40

/- src/App.tsx:29-39, getNodeHeight.  `node.data?.learningPoints` is truthy
exactly when the field is present (an empty array is truthy in JS), while
`node.data?.summary` is truthy only for a present non-empty string. -/
def getNodeHeight (node : NodeData) : Int :=
  if node.contentMinimized then 80
  else if node.nodeType = NodeType.root then 180
  else if node.nodeType = NodeType.detail then 550
  else if (node.data.bind NodeContent.learningPoints).isSome then 320
  else if truthyStr (node.data.bind NodeContent.summary) then 260
  else 120

/- src/App.tsx:45-52: the childrenMap built by computeSmartLayout groups a
node under its parentId only when that parentId is truthy; `childrenMapGet
nodes pid` is what `childrenMap.get(pid)` returns (up to the empty default),
preserving the insertion order of `nodes`. -/
def childrenMapGet (nodes : List NodeData) (pid : String) : List NodeData :=
  nodes.filter (fun n => truthyStr n.parentId && decide (n.parentId = some pid))

/- The two mutable maps threaded through the layout traversal
(positionMap and heightMap in src/App.tsx:55-56).  Writing prepends an
entry; a lookup returns the most recent entry for a key. -/
structure LayoutState where
  pos : List (String × Position)
  hts : List (String × Int)
deriving Repr

def emptyLayoutState : LayoutState := ⟨[], []⟩

def lookupKV {α : Type} (l : List (String × α)) (k : String) : Option α :=
  match l.find? (fun e => decide (e.1 = k)) with
  | some e => some e.2
  | none => none

/- src/App.tsx:58-90, layoutNode.  Returns the subtree footprint and the
updated maps.  The JS recursion is unbounded; `fuel` bounds its depth.
The fold over the children mirrors the forEach of lines 82-87: the first
accumulator component is currentChildY, the second totalSubTreeHeight, the
third the mutable maps. -/
def layoutNode (nodes : List NodeData) :
    Nat → String → Int → Int → LayoutState → Int × LayoutState
  | 0, _, _, _, st => (0, st)
  | fuel + 1, nodeId, x, y, st =>
    match nodes.find? (fun n => decide (n.id = nodeId)) with
    | none => (0, st)
    | some node =>
      let myHeight := getNodeHeight node
      let st2 : LayoutState :=
        { pos := (nodeId, ⟨x, y⟩) :: st.pos, hts := (nodeId, myHeight) :: st.hts }
      if node.collapsed then (myHeight, st2)
      else
        let children := childrenMapGet nodes nodeId
        if children = [] then (myHeight, st2)
        else
          let r := children.foldl
            (fun (acc : Int × Int × LayoutState) child =>
              let res := layoutNode nodes fuel child.id (x + INDENT_X) acc.1 acc.2.2
              (acc.1 + (res.1 + GAP_Y), acc.2.1 + (res.1 + GAP_Y), res.2))
            ((y + myHeight + GAP_Y, myHeight + GAP_Y, st2) : Int × Int × LayoutState)
          (r.2.1, r.2.2)

/- The body of the fold above, as a named function for the lemmas below;
`layoutNode_succ_some` proves that `layoutNode` folds exactly this step. -/
def layoutStep (nodes : List NodeData) (fuel : Nat) (cx : Int)
    (acc : Int × Int × LayoutState) (child : NodeData) : Int × Int × LayoutState :=
  let res := layoutNode nodes fuel child.id cx acc.1 acc.2.2
  (acc.1 + (res.1 + GAP_Y), acc.2.1 + (res.1 + GAP_Y), res.2)

/- src/App.tsx:43 and 129: a root is a node of root type or one with a
non-truthy parentId. -/
def rootsOf (nodes : List NodeData) : List NodeData :=
  nodes.filter (fun n => decide (n.nodeType = NodeType.root) || !(truthyStr n.parentId))

/- src/App.tsx:93-95: every root is laid out independently, anchored at its
stored position; the maps accumulate across roots. -/
def layoutPass (nodes : List NodeData) : LayoutState :=
  (rootsOf nodes).foldl
    (fun st root =>
      (layoutNode nodes nodes.length root.id root.position.x root.position.y st).2)
    emptyLayoutState

/- src/App.tsx:97-104: the final rewrite of one node.  A node present in
both maps gets the recomputed position and height (every computed height is
one of the positive constants of getNodeHeight, so the JS truthiness test
`pos && h` amounts to presence in both maps); any other node passes through
unchanged. -/
def applyLayout (st : LayoutState) (n : NodeData) : NodeData :=
  match lookupKV st.pos n.id, lookupKV st.hts n.id with
  | some p, some h => { n with position := p, height := some h }
  | _, _ => n

/- src/App.tsx:41-105, computeSmartLayout -/
def computeSmartLayout (nodes : List NodeData) : List NodeData :=
  nodes.map (applyLayout (layoutPass nodes))

/- src/App.tsx:137 and 198: direct children by strict comparison of
parentId with an id (no truthiness filter here). -/
def visChildren (nodes : List NodeData) (pid : String) : List NodeData :=
  nodes.filter (fun n => decide (n.parentId = some pid))

/- src/App.tsx:125-145, visibleNodes.  The source marks ids by a
breadth-first traversal seeded with all roots: every root id is visible and
the children of a visible non-collapsed node are visible.  `visibleFrom`
collects the same set of reachable ids by recursive descent, with fuel
bounding the depth (the source BFS likewise fails to terminate on cyclic
inputs). -/
def visibleFrom (nodes : List NodeData) : Nat → NodeData → List String
  | 0, _ => []
  | fuel + 1, current =>
    current.id ::
      (if current.collapsed then []
       else ((visChildren nodes current.id).map (visibleFrom nodes fuel)).flatten)

def visibleIdSet (nodes : List NodeData) : List String :=
  ((rootsOf nodes).map (visibleFrom nodes nodes.length)).flatten

/- src/App.tsx:144: the output preserves the order of `nodes`. -/
def visibleNodes (nodes : List NodeData) : List NodeData :=
  nodes.filter (fun n => decide (n.id ∈ visibleIdSet nodes))

/- src/App.tsx:213: flip `collapsed` on the matching node. -/
def toggleCollapseById (id : String) (n : NodeData) : NodeData :=
  if n.id = id then { n with collapsed := !n.collapsed } else n

/- src/App.tsx:212-214, handleToggleCollapse -/
def handleToggleCollapse (nodes : List NodeData) (id : String) : List NodeData :=
  computeSmartLayout (nodes.map (toggleCollapseById id))

/- src/App.tsx:179-188: the node handleAddChild creates.  `newId` stands for
the fresh random id produced by generateId().  The omitted optional fields
(height, isLoading, data) are undefined in the source. -/
def newChildNode (newId parentId : String) (parent : NodeData) : NodeData :=
  { id := newId
    parentId := some parentId
    title := "Node Baru"
    position := { x := parent.position.x + INDENT_X, y := parent.position.y + 100 }
    level := parent.level + 1
    nodeType :=
      if parent.nodeType = NodeType.root then NodeType.chapter
      else if parent.nodeType = NodeType.chapter then NodeType.subchapter
      else NodeType.detail
    collapsed := false
    contentMinimized := true
    height := none
    isLoading := false
    data := none }

/- src/App.tsx:175-194, handleAddChild -/
def handleAddChild (nodes : List NodeData) (newId parentId : String) : List NodeData :=
  match nodes.find? (fun n => decide (n.id = parentId)) with
  | none => nodes
  | some parent =>
    let afterAdd := computeSmartLayout (nodes ++ [newChildNode newId parentId parent])
    if parent.collapsed then handleToggleCollapse afterAdd parentId else afterAdd

/- src/App.tsx:196-206, the recursive cascade of handleDelete: remove every
node with the target id, then recursively delete each child (children being
computed from the list as it stood at entry to this call).  The JS recursion
is unbounded; fuel bounds its depth. -/
def deleteRec : Nat → String → List NodeData → List NodeData
  | 0, _, current => current
  | fuel + 1, nodeId, current =>
    let children := visChildren current nodeId
    let remaining := current.filter (fun n => decide (n.id ≠ nodeId))
    children.foldl (fun rem child => deleteRec fuel child.id rem) remaining

def handleDelete (nodes : List NodeData) (id : String) : List NodeData :=
  computeSmartLayout (deleteRec nodes.length id nodes)

/- src/services/aiService.ts: structured provider results (types.ts). -/
structure GeneratedChapter where
  title : String
  briefDescription : String
deriving DecidableEq, Repr

structure GeneratedSubChapter where
  title : String
  learningPoints : List String
deriving DecidableEq, Repr

structure GeneratedDetail where
  title : String
  comprehensiveExplanation : String
  corePoints : List String
deriving DecidableEq, Repr

/- Each provider wrapper is modelled as a function of the optional text of
the provider reply (`response.text`); a thrown Error is `Except.error` with
the thrown message, a normal return is `Except.ok`.  JSON.parse plus field
extraction on a truthy reply is abstracted by the `parse` argument. -/

/- src/services/aiService.ts:10-28, generateTopicTitle: a falsy reply text
falls back to "Topik Baru"; nothing is thrown. -/
def generateTopicTitle (respText : Option String) : Except String String :=
  if truthyStr respText then Except.ok (respText.getD "").trim
  else Except.ok "Topik Baru"

/- src/services/aiService.ts:32-76, generateChapters -/
def generateChapters (parse : String → List GeneratedChapter) (respText : Option String) :
    Except String (List GeneratedChapter) :=
  if truthyStr respText then Except.ok (parse (respText.getD ""))
  else Except.error "Gagal membuat bab."

/- src/services/aiService.ts:78-124, generateSubChapters -/
def generateSubChapters (parse : String → List GeneratedSubChapter) (respText : Option String) :
    Except String (List GeneratedSubChapter) :=
  if truthyStr respText then Except.ok (parse (respText.getD ""))
  else Except.error "Gagal membuat sub-bab."

/- src/services/aiService.ts:126-178, generateDetails -/
def generateDetails (parse : String → GeneratedDetail) (respText : Option String) :
    Except String GeneratedDetail :=
  if truthyStr respText then Except.ok (parse (respText.getD ""))
  else Except.error "Gagal membuat penjelasan detail."

/- ---------------------------------------------------------------------
Derived notions used to state the properties.
--------------------------------------------------------------------- -/

/- The fields of a node that the layout pass reads: identity, tree shape,
collapse state and the inputs of getNodeHeight.  Layout and visibility are
functions of the list of these keys (plus the stored positions of roots). -/
def layoutKey (n : NodeData) :
    String × Option String × NodeType × Bool × Bool × Option NodeContent :=
  (n.id, n.parentId, n.nodeType, n.collapsed, n.contentMinimized, n.data)

/- Equality of all fields except position and height. -/
def sameButLayout (a b : NodeData) : Prop :=
  a.id = b.id ∧ a.parentId = b.parentId ∧ a.title = b.title ∧
  a.level = b.level ∧ a.nodeType = b.nodeType ∧ a.collapsed = b.collapsed ∧
  a.contentMinimized = b.contentMinimized ∧ a.isLoading = b.isLoading ∧
  a.data = b.data

/- Well-formedness of a node set (the "self-consistent" forest invariants of
the specification): ids are unique and non-empty, a node's level is one more
than its parent's, and a root-typed node is not somebody's child. -/
def NodupIds (L : List NodeData) : Prop := (L.map NodeData.id).Nodup

def IdsNonEmpty (L : List NodeData) : Prop := ∀ n ∈ L, n.id ≠ ""

def LevelOk (L : List NodeData) : Prop :=
  ∀ c ∈ L, ∀ p ∈ L, c.parentId = some p.id → c.level = p.level + 1

def RootsNoParent (L : List NodeData) : Prop :=
  ∀ n ∈ L, n.nodeType = NodeType.root → truthyStr n.parentId = false

/- A node outside the roots filter: the "non-root node" of the orphan
invariant. -/
def orphanFree (L : List NodeData) : Prop :=
  ∀ n ∈ L,
    (decide (n.nodeType = NodeType.root) || !(truthyStr n.parentId)) = false →
    ∃ p ∈ L, n.parentId = some p.id

/- Strict descendants of the node with id `rootId`, through parent links of
members of `nodes`. -/
inductive Descendant (nodes : List NodeData) (rootId : String) : NodeData → Prop
  | base {c : NodeData} : c ∈ nodes → c.parentId = some rootId → Descendant nodes rootId c
  | step {p c : NodeData} :
      Descendant nodes rootId p → c ∈ nodes → c.parentId = some p.id →
      Descendant nodes rootId c

/- A chain of the visibility traversal: `VisChain nodes r c ch` says the
target `c` is reached from `r` by child steps whose parents (including `r`
when a step is taken, excluding the target) are all non-collapsed; `ch`
records the nodes entered after `r`, most recent first. -/
inductive VisChain (nodes : List NodeData) : NodeData → NodeData → List NodeData → Prop
  | refl (r : NodeData) : VisChain nodes r r []
  | step {r p c : NodeData} {ch : List NodeData} :
      VisChain nodes r p ch → p.collapsed = false → c ∈ nodes →
      c.parentId = some p.id → VisChain nodes r c (c :: ch)

/- The ids the layout traversal reaches from a starting id: itself, and
recursively the children (in the layout's children map) of any reached id
whose node is found and non-collapsed. -/
inductive Visits (nodes : List NodeData) : String → String → Prop
  | refl (a : String) : Visits nodes a a
  | step {a b : String} {node child : NodeData} :
      Visits nodes a b →
      nodes.find? (fun n => decide (n.id = b)) = some node →
      node.collapsed = false →
      child ∈ childrenMapGet nodes b →
      Visits nodes a child.id

/- Concrete inputs for the witnesses and counterexamples below. -/
def mkNode (id : String) (pid : Option String) (ty : NodeType) (lvl : Nat)
    (col : Bool := false) (cm : Bool := true) (payload : Option NodeContent := none) :
    NodeData :=
  { id := id, parentId := pid, title := id, position := ⟨0, 0⟩, level := lvl,
    nodeType := ty, collapsed := col, contentMinimized := cm, height := none,
    isLoading := false, data := payload }

/- A chapter node carrying both a summary and a learning-point list,
not content-minimized. -/
def c5Node : NodeData :=
  mkNode "bab1" (some "root") NodeType.chapter 1 false false
    (some { summary := some "ringkasan", learningPoints := some ["poin"] })

def c5WitnessNode : NodeData :=
  mkNode "sub1" (some "bab1") NodeType.subchapter 2 false false
    (some { learningPoints := some ["poin a", "poin b"] })

/- A single expanded childless node (for the footprint counterexample). -/
def c1LeafNode : NodeData :=
  mkNode "solo" none NodeType.chapter 0 false false

def c1Nodes : List NodeData := [c1LeafNode]

/- An expanded parent with one child (for the footprint witness). -/
def c1wParent : NodeData := mkNode "p" none NodeType.chapter 0 false true
def c1wChild : NodeData := mkNode "q" (some "p") NodeType.subchapter 1 false true
def c1wNodes : List NodeData := [c1wParent, c1wChild]

/- A root and an unreachable stray node (for the frame-effect witness). -/
def c7Root : NodeData := mkNode "r" none NodeType.root 0
def c7Stray : NodeData := mkNode "s" (some "zzz") NodeType.detail 3
def c7Nodes : List NodeData := [c7Root, c7Stray]

/- Pointwise equality of the layout-relevant keys of two node lists: the
layout pass and the visibility resolver are functions of these keys (plus
the roots' stored positions). -/
def KeyEq (A B : List NodeData) : Prop := A.map layoutKey = B.map layoutKey

/- One step of the fold over the roots in layoutPass. -/
def layoutRootStep (nodes : List NodeData) (st : LayoutState) (root : NodeData) :
    LayoutState :=
  (layoutNode nodes nodes.length root.id root.position.x root.position.y st).2

/- A small two-node forest (for the idempotence witness). -/
def c2Root : NodeData := mkNode "pusat" none NodeType.root 0
def c2Kid : NodeData := mkNode "cabang" (some "pusat") NodeType.chapter 1
def c2Nodes : List NodeData := [c2Root, c2Kid]

/- A three-node chain (for the collapse round-trip witness). -/
def c3Root : NodeData := mkNode "r3" none NodeType.root 0
def c3Mid : NodeData := mkNode "a3" (some "r3") NodeType.chapter 1
def c3Leaf : NodeData := mkNode "b3" (some "a3") NodeType.subchapter 2
def c3Nodes : List NodeData := [c3Root, c3Mid, c3Leaf]

/- A collapsed chapter under a collapsed root (for the add-child-visibility
counterexample), and under an expanded root (for its witness). -/
def c8Root : NodeData := mkNode "r8" none NodeType.root 0 true
def c8Mid : NodeData := mkNode "p8" (some "r8") NodeType.chapter 1 true
def c8cNodes : List NodeData := [c8Root, c8Mid]

def c8wRoot : NodeData := mkNode "r8w" none NodeType.root 0
def c8wPar : NodeData := mkNode "p8w" (some "r8w") NodeType.chapter 1 true
def c8wNodes : List NodeData := [c8wRoot, c8wPar]

/- Every height entry the traversal writes is the getNodeHeight of the node
found under that id. -/
def HtsCanonical (nodes : List NodeData) (st : LayoutState) : Prop :=
  ∀ e ∈ st.hts, ∃ m, nodes.find? (fun n => decide (n.id = e.1)) = some m ∧
    e.2 = getNodeHeight m

/- A collapsed chapter under an expanded root (for the collapsed-node witness). -/
def c10Root : NodeData := mkNode "r10" none NodeType.root 0
def c10Kid : NodeData := mkNode "k10" (some "r10") NodeType.chapter 1 true
def c10Nodes : List NodeData := [c10Root, c10Kid]

/- A three-level chain (for the delete-cascade witness). -/
def c4Root : NodeData := mkNode "r4" none NodeType.root 0
def c4Kid : NodeData := mkNode "k4" (some "r4") NodeType.chapter 1
def c4Grand : NodeData := mkNode "g4" (some "k4") NodeType.subchapter 2
def c4Nodes : List NodeData := [c4Root, c4Kid, c4Grand]

/- A single root (for the add-child witness). -/
def c9Root : NodeData := mkNode "akar" none NodeType.root 0
def c9Nodes : List NodeData := [c9Root]

/- ---------------------------------------------------------------------
Unfolding equations and basic facts about the layout traversal.
--------------------------------------------------------------------- -/

theorem layoutNode_zero (nodes : List NodeData) (nid : String) (x y : Int) (st : LayoutState) :
    layoutNode nodes 0 nid x y st = (0, st) := rfl

theorem layoutNode_succ_none {nodes : List NodeData} {nid : String} (fuel : Nat)
    (x y : Int) (st : LayoutState)
    (hf : nodes.find? (fun n => decide (n.id = nid)) = none) :
    layoutNode nodes (fuel + 1) nid x y st = (0, st) := by
  simp [layoutNode, hf]

theorem layoutNode_succ_collapsed {nodes : List NodeData} {nid : String} {node : NodeData}
    (fuel : Nat) (x y : Int) (st : LayoutState)
    (hf : nodes.find? (fun n => decide (n.id = nid)) = some node)
    (hc : node.collapsed = true) :
    layoutNode nodes (fuel + 1) nid x y st =
      (getNodeHeight node,
       ⟨(nid, ⟨x, y⟩) :: st.pos, (nid, getNodeHeight node) :: st.hts⟩) := by
  simp [layoutNode, hf, hc]

theorem layoutNode_succ_leaf {nodes : List NodeData} {nid : String} {node : NodeData}
    (fuel : Nat) (x y : Int) (st : LayoutState)
    (hf : nodes.find? (fun n => decide (n.id = nid)) = some node)
    (hc : node.collapsed = false) (hch : childrenMapGet nodes nid = []) :
    layoutNode nodes (fuel + 1) nid x y st =
      (getNodeHeight node,
       ⟨(nid, ⟨x, y⟩) :: st.pos, (nid, getNodeHeight node) :: st.hts⟩) := by
  simp [layoutNode, hf, hc, hch]

theorem layoutNode_succ_children {nodes : List NodeData} {nid : String} {node : NodeData}
    (fuel : Nat) (x y : Int) (st : LayoutState)
    (hf : nodes.find? (fun n => decide (n.id = nid)) = some node)
    (hc : node.collapsed = false) (hch : ¬ childrenMapGet nodes nid = []) :
    layoutNode nodes (fuel + 1) nid x y st =
      (((childrenMapGet nodes nid).foldl (layoutStep nodes fuel (x + INDENT_X))
          (y + getNodeHeight node + GAP_Y, getNodeHeight node + GAP_Y,
           ⟨(nid, ⟨x, y⟩) :: st.pos, (nid, getNodeHeight node) :: st.hts⟩)).2.1,
       ((childrenMapGet nodes nid).foldl (layoutStep nodes fuel (x + INDENT_X))
          (y + getNodeHeight node + GAP_Y, getNodeHeight node + GAP_Y,
           ⟨(nid, ⟨x, y⟩) :: st.pos, (nid, getNodeHeight node) :: st.hts⟩)).2.2) := by
  simp only [layoutNode, hf, hc, Bool.false_eq_true, if_false, hch]
  rfl

/- The total accumulated by the children fold: the initial total plus, for
each child, its returned subtree footprint plus the gap. -/
theorem layoutFold_total (nodes : List NodeData) (fuel : Nat) (cx : Int)
    (hIH : ∀ (nid : String) (x y : Int) (st : LayoutState) (x' y' : Int) (st' : LayoutState),
      (layoutNode nodes fuel nid x y st).1 = (layoutNode nodes fuel nid x' y' st').1) :
    ∀ (cs : List NodeData) (a t : Int) (s : LayoutState),
      (cs.foldl (layoutStep nodes fuel cx) (a, t, s)).2.1 =
        t + (cs.map
          (fun c => (layoutNode nodes fuel c.id 0 0 emptyLayoutState).1 + GAP_Y)).sum := by
  intro cs
  induction cs with
  | nil => intro a t s; simp
  | cons c cs ih =>
    intro a t s
    simp only [List.foldl_cons, List.map_cons, List.sum_cons, layoutStep]
    rw [ih, hIH c.id cx a s 0 0 emptyLayoutState]
    ring

/- The returned subtree footprint does not depend on the anchor position or
on the accumulated maps. -/
theorem layoutNode_fst_indep (nodes : List NodeData) :
    ∀ (fuel : Nat) (nid : String) (x y : Int) (st : LayoutState)
      (x' y' : Int) (st' : LayoutState),
      (layoutNode nodes fuel nid x y st).1 = (layoutNode nodes fuel nid x' y' st').1 := by
  intro fuel
  induction fuel with
  | zero => intros; rfl
  | succ fuel ih =>
    intro nid x y st x' y' st'
    cases hf : nodes.find? (fun n => decide (n.id = nid)) with
    | none => rw [layoutNode_succ_none fuel x y st hf, layoutNode_succ_none fuel x' y' st' hf]
    | some node =>
      cases hc : node.collapsed with
      | true =>
        rw [layoutNode_succ_collapsed fuel x y st hf hc,
          layoutNode_succ_collapsed fuel x' y' st' hf hc]
      | false =>
        by_cases hch : childrenMapGet nodes nid = []
        · rw [layoutNode_succ_leaf fuel x y st hf hc hch,
            layoutNode_succ_leaf fuel x' y' st' hf hc hch]
        · rw [layoutNode_succ_children fuel x y st hf hc hch,
            layoutNode_succ_children fuel x' y' st' hf hc hch]
          simp only
          rw [layoutFold_total nodes fuel (x + INDENT_X) ih,
            layoutFold_total nodes fuel (x' + INDENT_X) ih]

/- ---------------------------------------------------------------------
Claim C1 — the subtree footprint recurrence.
--------------------------------------------------------------------- -/

/-- Claim C1, as stated, is falsified by an expanded childless node: for a
non-collapsed node the claim's formula gives own height + gap + empty sum
= 160, but the layout traversal returns just the node's height 120 when the
node has no children. -/
theorem C1_counterexample :
    (layoutNode c1Nodes 1 "solo" 0 0 emptyLayoutState).1 = 120 ∧
    (layoutNode c1Nodes 1 "solo" 0 0 emptyLayoutState).1 ≠
      getNodeHeight c1LeafNode + GAP_Y +
        ((childrenMapGet c1Nodes "solo").map
          (fun c => (layoutNode c1Nodes 0 c.id 0 0 emptyLayoutState).1 + GAP_Y)).sum := by
  constructor <;> decide

/-- Claim C1 (amended): for every node found by the layout traversal, the
subtree footprint returned for it equals its own height when it is collapsed
or has no children in the children map, and equals its own height plus the
gap plus the sum of (child subtree footprint + gap) over its direct children
when it is not collapsed and has at least one child. -/
theorem C1_subtree_footprint (nodes : List NodeData) (fuel : Nat) (nid : String)
    (x y : Int) (st : LayoutState) (node : NodeData)
    (hf : nodes.find? (fun n => decide (n.id = nid)) = some node) :
    ((node.collapsed = true ∨ childrenMapGet nodes nid = []) →
      (layoutNode nodes (fuel + 1) nid x y st).1 = getNodeHeight node) ∧
    (node.collapsed = false → childrenMapGet nodes nid ≠ [] →
      (layoutNode nodes (fuel + 1) nid x y st).1 =
        getNodeHeight node + GAP_Y +
          ((childrenMapGet nodes nid).map
            (fun c => (layoutNode nodes fuel c.id 0 0 emptyLayoutState).1 + GAP_Y)).sum) := by
  constructor
  · rintro (hc | hch)
    · rw [layoutNode_succ_collapsed fuel x y st hf hc]
    · cases hc : node.collapsed with
      | true => rw [layoutNode_succ_collapsed fuel x y st hf hc]
      | false => rw [layoutNode_succ_leaf fuel x y st hf hc hch]
  · intro hc hch
    rw [layoutNode_succ_children fuel x y st hf hc hch]
    simp only
    rw [layoutFold_total nodes fuel (x + INDENT_X)
      (fun a b c d e f g => layoutNode_fst_indep nodes fuel a b c d e f g)]

/-- Witness for C1_subtree_footprint: an expanded parent with one child
satisfies the footprint recurrence. -/
theorem C1_subtree_footprint_witness :
    (layoutNode c1wNodes 2 "p" 0 0 emptyLayoutState).1 =
      getNodeHeight c1wParent + GAP_Y +
        ((childrenMapGet c1wNodes "p").map
          (fun c => (layoutNode c1wNodes 1 c.id 0 0 emptyLayoutState).1 + GAP_Y)).sum :=
  (C1_subtree_footprint c1wNodes 1 "p" 0 0 emptyLayoutState c1wParent (by decide)).2
    (by decide) (by decide)

/- ---------------------------------------------------------------------
Claim C5 — the height rule table.
--------------------------------------------------------------------- -/

/-- Claim C5, as stated, is falsified by a chapter node that carries a
learning-point list: the claim's table assigns a chapter-with-summary the
medium height 260 (the learning-point row being reserved for subchapters),
but getNodeHeight keys the 320 row on the data payload alone, regardless of
nodeType, so this non-minimized chapter with a summary gets 320. -/
theorem C5_counterexample :
    getNodeHeight c5Node = 320 ∧ getNodeHeight c5Node ≠ 260 := by
  constructor <;> decide

/-- Claim C5 (amended): for every node, the height follows the fixed rule
table keyed by contentMinimized, nodeType and the data payload: minimized →
80 regardless of type; else root → 180; detail → 550; any other node whose
data carries a learningPoints field → 320; any other node whose data carries
a non-empty summary → 260; otherwise 120. -/
theorem C5_height_table (n : NodeData) :
    (n.contentMinimized = true → getNodeHeight n = 80) ∧
    (n.contentMinimized = false → n.nodeType = NodeType.root → getNodeHeight n = 180) ∧
    (n.contentMinimized = false → n.nodeType = NodeType.detail → getNodeHeight n = 550) ∧
    (n.contentMinimized = false → n.nodeType ≠ NodeType.root →
      n.nodeType ≠ NodeType.detail → (n.data.bind NodeContent.learningPoints).isSome = true →
      getNodeHeight n = 320) ∧
    (n.contentMinimized = false → n.nodeType ≠ NodeType.root →
      n.nodeType ≠ NodeType.detail → (n.data.bind NodeContent.learningPoints).isSome = false →
      truthyStr (n.data.bind NodeContent.summary) = true → getNodeHeight n = 260) ∧
    (n.contentMinimized = false → n.nodeType ≠ NodeType.root →
      n.nodeType ≠ NodeType.detail → (n.data.bind NodeContent.learningPoints).isSome = false →
      truthyStr (n.data.bind NodeContent.summary) = false → getNodeHeight n = 120) := by
  unfold getNodeHeight
  refine ⟨?_, ?_, ?_, ?_, ?_, ?_⟩ <;> intros <;> simp_all

/-- Witness for C5_height_table: a non-minimized subchapter with learning
points gets height 320. -/
theorem C5_height_table_witness : getNodeHeight c5WitnessNode = 320 :=
  (C5_height_table c5WitnessNode).2.2.2.1 (by decide) (by decide) (by decide) (by decide)

/- ---------------------------------------------------------------------
Claim C6 — provider error on an empty response.
--------------------------------------------------------------------- -/

/-- Claim C6, as stated, is falsified by generateTopicTitle: on an empty
(absent or blank) provider reply it does not fail with a provider error but
returns the fallback title "Topik Baru". -/
theorem C6_counterexample :
    generateTopicTitle none = Except.ok "Topik Baru" ∧
    generateTopicTitle (some "") = Except.ok "Topik Baru" := by
  constructor <;> rfl

/-- Claim C6 (amended): generateChapters, generateSubChapters and
generateDetails fail with their provider-error message whenever the
provider's reply text is empty (absent or blank), for every input;
generateTopicTitle instead falls back to the default title "Topik Baru". -/
theorem C6_empty_response
    (pc : String → List GeneratedChapter) (ps : String → List GeneratedSubChapter)
    (pd : String → GeneratedDetail) :
    generateChapters pc none = Except.error "Gagal membuat bab." ∧
    generateChapters pc (some "") = Except.error "Gagal membuat bab." ∧
    generateSubChapters ps none = Except.error "Gagal membuat sub-bab." ∧
    generateSubChapters ps (some "") = Except.error "Gagal membuat sub-bab." ∧
    generateDetails pd none = Except.error "Gagal membuat penjelasan detail." ∧
    generateDetails pd (some "") = Except.error "Gagal membuat penjelasan detail." ∧
    generateTopicTitle none = Except.ok "Topik Baru" ∧
    generateTopicTitle (some "") = Except.ok "Topik Baru" := by
  refine ⟨rfl, rfl, rfl, rfl, rfl, rfl, rfl, rfl⟩

/- ---------------------------------------------------------------------
Pass-through facts: the layout pass and the collapse toggle only modify
position, height and (for the toggle) collapsed.
--------------------------------------------------------------------- -/

theorem applyLayout_fields (st : LayoutState) (n : NodeData) :
    (applyLayout st n).id = n.id ∧ (applyLayout st n).parentId = n.parentId ∧
    (applyLayout st n).title = n.title ∧ (applyLayout st n).level = n.level ∧
    (applyLayout st n).nodeType = n.nodeType ∧ (applyLayout st n).collapsed = n.collapsed ∧
    (applyLayout st n).contentMinimized = n.contentMinimized ∧
    (applyLayout st n).isLoading = n.isLoading ∧ (applyLayout st n).data = n.data := by
  unfold applyLayout
  cases lookupKV st.pos n.id <;> cases lookupKV st.hts n.id <;> simp

theorem applyLayout_id (st : LayoutState) (n : NodeData) :
    (applyLayout st n).id = n.id := (applyLayout_fields st n).1

theorem toggleCollapseById_fields (id : String) (n : NodeData) :
    (toggleCollapseById id n).id = n.id ∧ (toggleCollapseById id n).parentId = n.parentId ∧
    (toggleCollapseById id n).title = n.title ∧ (toggleCollapseById id n).level = n.level ∧
    (toggleCollapseById id n).nodeType = n.nodeType ∧
    (toggleCollapseById id n).contentMinimized = n.contentMinimized ∧
    (toggleCollapseById id n).isLoading = n.isLoading ∧
    (toggleCollapseById id n).data = n.data := by
  unfold toggleCollapseById
  split <;> simp

theorem toggleCollapseById_id (id : String) (n : NodeData) :
    (toggleCollapseById id n).id = n.id := (toggleCollapseById_fields id n).1

theorem toggleCollapseById_ne (id : String) (n : NodeData) (h : n.id ≠ id) :
    toggleCollapseById id n = n := by
  unfold toggleCollapseById
  simp [h]

theorem computeSmartLayout_map_id (L : List NodeData) :
    (computeSmartLayout L).map NodeData.id = L.map NodeData.id := by
  unfold computeSmartLayout
  rw [List.map_map]
  exact List.map_congr_left (fun n _ => applyLayout_id _ n)

theorem find?_map_of_id_pres (f : NodeData → NodeData) (hf : ∀ n, (f n).id = n.id)
    (k : String) : ∀ (L : List NodeData),
    (L.map f).find? (fun n => decide (n.id = k)) =
      ((L.find? (fun n => decide (n.id = k))).map f) := by
  intro L
  induction L with
  | nil => rfl
  | cons a L ih =>
    simp only [List.map_cons, List.find?_cons]
    rw [hf a]
    by_cases h : a.id = k
    · simp [h]
    · simp [h, ih]

theorem nodupIds_eq_of_id_eq {L : List NodeData} (h : NodupIds L)
    {a b : NodeData} (ha : a ∈ L) (hb : b ∈ L) (hid : a.id = b.id) : a = b := by
  exact List.inj_on_of_nodup_map h ha hb hid

theorem find?_id_of_mem {L : List NodeData} (h : NodupIds L) {n : NodeData} (hn : n ∈ L) :
    L.find? (fun m => decide (m.id = n.id)) = some n := by
  cases hfind : L.find? (fun m => decide (m.id = n.id)) with
  | none =>
    exfalso
    have := List.find?_eq_none.mp hfind n hn
    simp at this
  | some m =>
    have hm : m ∈ L := List.mem_of_find?_eq_some hfind
    have hmid : m.id = n.id := by
      have := List.find?_some hfind
      simpa using this
    rw [nodupIds_eq_of_id_eq h hm hn hmid]

theorem find?_eq_none_of_fresh {L : List NodeData} {k : String}
    (h : ∀ n ∈ L, n.id ≠ k) : L.find? (fun n => decide (n.id = k)) = none := by
  apply List.find?_eq_none.mpr
  intro n hn
  simp [h n hn]

theorem applyLayout_level (st : LayoutState) (n : NodeData) :
    (applyLayout st n).level = n.level := (applyLayout_fields st n).2.2.2.1

theorem applyLayout_nodeType (st : LayoutState) (n : NodeData) :
    (applyLayout st n).nodeType = n.nodeType := (applyLayout_fields st n).2.2.2.2.1

theorem applyLayout_collapsed (st : LayoutState) (n : NodeData) :
    (applyLayout st n).collapsed = n.collapsed := (applyLayout_fields st n).2.2.2.2.2.1

theorem applyLayout_contentMinimized (st : LayoutState) (n : NodeData) :
    (applyLayout st n).contentMinimized = n.contentMinimized :=
  (applyLayout_fields st n).2.2.2.2.2.2.1

theorem applyLayout_parentId (st : LayoutState) (n : NodeData) :
    (applyLayout st n).parentId = n.parentId := (applyLayout_fields st n).2.1

theorem toggleCollapseById_level (id : String) (n : NodeData) :
    (toggleCollapseById id n).level = n.level := (toggleCollapseById_fields id n).2.2.2.1

theorem toggleCollapseById_nodeType (id : String) (n : NodeData) :
    (toggleCollapseById id n).nodeType = n.nodeType :=
  (toggleCollapseById_fields id n).2.2.2.2.1

theorem toggleCollapseById_contentMinimized (id : String) (n : NodeData) :
    (toggleCollapseById id n).contentMinimized = n.contentMinimized :=
  (toggleCollapseById_fields id n).2.2.2.2.2.1

theorem toggleCollapseById_parentId (id : String) (n : NodeData) :
    (toggleCollapseById id n).parentId = n.parentId := (toggleCollapseById_fields id n).2.1

theorem handleToggleCollapse_map_id (L : List NodeData) (i : String) :
    (handleToggleCollapse L i).map NodeData.id = L.map NodeData.id := by
  unfold handleToggleCollapse
  rw [computeSmartLayout_map_id, List.map_map]
  exact List.map_congr_left (fun n _ => toggleCollapseById_id i n)

theorem computeSmartLayout_find?_id (L : List NodeData) (k : String) :
    (computeSmartLayout L).find? (fun n => decide (n.id = k)) =
      (L.find? (fun n => decide (n.id = k))).map (applyLayout (layoutPass L)) :=
  find?_map_of_id_pres _ (applyLayout_id _) k L

theorem C9_add_child (nodes : List NodeData) (newId pid : String) (parent : NodeData)
    (hfind : nodes.find? (fun n => decide (n.id = pid)) = some parent)
    (hfresh : ∀ n ∈ nodes, n.id ≠ newId) :
    (handleAddChild nodes newId pid).map NodeData.id = nodes.map NodeData.id ++ [newId] ∧
    ∃ m, (handleAddChild nodes newId pid).find? (fun n => decide (n.id = newId)) = some m ∧
      m.level = parent.level + 1 ∧
      m.contentMinimized = true ∧
      (parent.nodeType = NodeType.root → m.nodeType = NodeType.chapter) ∧
      (parent.nodeType = NodeType.chapter → m.nodeType = NodeType.subchapter) ∧
      (parent.nodeType = NodeType.subchapter → m.nodeType = NodeType.detail) ∧
      (parent.nodeType = NodeType.detail → m.nodeType = NodeType.detail) := by
  simp only [handleAddChild, hfind]
  cases hcol : parent.collapsed with
  | false =>
    simp only [Bool.false_eq_true, if_false]
    constructor
    · rw [computeSmartLayout_map_id, List.map_append]
      rfl
    · rw [computeSmartLayout_find?_id, List.find?_append, find?_eq_none_of_fresh hfresh]
      simp only [Option.none_or, List.find?_cons, newChildNode]
      simp only [decide_True]
      refine ⟨_, rfl, ?_, ?_, ?_, ?_, ?_, ?_⟩
      · rw [applyLayout_level]
      · rw [applyLayout_contentMinimized]
      · intro h; rw [applyLayout_nodeType]; simp [h]
      · intro h; rw [applyLayout_nodeType]; simp [h]
      · intro h; rw [applyLayout_nodeType]; simp [h]
      · intro h; rw [applyLayout_nodeType]; simp [h]
  | true =>
    simp only [if_true]
    constructor
    · rw [handleToggleCollapse_map_id, computeSmartLayout_map_id, List.map_append]
      rfl
    · unfold handleToggleCollapse
      rw [computeSmartLayout_find?_id,
        find?_map_of_id_pres (toggleCollapseById pid) (toggleCollapseById_id pid) newId,
        computeSmartLayout_find?_id, List.find?_append, find?_eq_none_of_fresh hfresh]
      simp only [Option.none_or, List.find?_cons, newChildNode]
      simp only [decide_True, Option.map_some]
      refine ⟨_, rfl, ?_, ?_, ?_, ?_, ?_, ?_⟩
      · rw [applyLayout_level, toggleCollapseById_level, applyLayout_level]
      · rw [applyLayout_contentMinimized, toggleCollapseById_contentMinimized,
          applyLayout_contentMinimized]
      · intro h
        rw [applyLayout_nodeType, toggleCollapseById_nodeType, applyLayout_nodeType]
        simp [h]
      · intro h
        rw [applyLayout_nodeType, toggleCollapseById_nodeType, applyLayout_nodeType]
        simp [h]
      · intro h
        rw [applyLayout_nodeType, toggleCollapseById_nodeType, applyLayout_nodeType]
        simp [h]
      · intro h
        rw [applyLayout_nodeType, toggleCollapseById_nodeType, applyLayout_nodeType]
        simp [h]

theorem C9_add_child_witness :
    (handleAddChild c9Nodes "anak" "akar").map NodeData.id =
      c9Nodes.map NodeData.id ++ ["anak"] ∧
    ∃ m, (handleAddChild c9Nodes "anak" "akar").find? (fun n => decide (n.id = "anak")) =
        some m ∧
      m.level = c9Root.level + 1 ∧
      m.contentMinimized = true ∧
      (c9Root.nodeType = NodeType.root → m.nodeType = NodeType.chapter) ∧
      (c9Root.nodeType = NodeType.chapter → m.nodeType = NodeType.subchapter) ∧
      (c9Root.nodeType = NodeType.subchapter → m.nodeType = NodeType.detail) ∧
      (c9Root.nodeType = NodeType.detail → m.nodeType = NodeType.detail) :=
  C9_add_child c9Nodes "anak" "akar" c9Root (by decide) (by decide)

theorem Visits_lift {nodes : List NodeData} {a : String} {node c : NodeData} {k : String}
    (hf : nodes.find? (fun n => decide (n.id = a)) = some node)
    (hc : node.collapsed = false) (hch : c ∈ childrenMapGet nodes a)
    (h : Visits nodes c.id k) : Visits nodes a k := by
  induction h with
  | refl => exact Visits.step (Visits.refl a) hf hc hch
  | step hv hf2 hc2 hch2 ih => exact Visits.step ih hf2 hc2 hch2

theorem layoutNode_writes (nodes : List NodeData) :
    ∀ (fuel : Nat) (nid : String) (x y : Int) (st : LayoutState),
      ∃ (np : List (String × Position)) (nh : List (String × Int)),
        (layoutNode nodes fuel nid x y st).2.pos = np ++ st.pos ∧
        (layoutNode nodes fuel nid x y st).2.hts = nh ++ st.hts ∧
        (∀ e ∈ np, Visits nodes nid e.1) ∧
        (∀ e ∈ nh, Visits nodes nid e.1) := by
  intro fuel
  induction fuel with
  | zero =>
    intro nid x y st
    exact ⟨[], [], rfl, rfl, by simp, by simp⟩
  | succ fuel ih =>
    intro nid x y st
    cases hf : nodes.find? (fun n => decide (n.id = nid)) with
    | none =>
      rw [layoutNode_succ_none fuel x y st hf]
      exact ⟨[], [], rfl, rfl, by simp, by simp⟩
    | some node =>
      cases hc : node.collapsed with
      | true =>
        rw [layoutNode_succ_collapsed fuel x y st hf hc]
        refine ⟨[(nid, ⟨x, y⟩)], [(nid, getNodeHeight node)], rfl, rfl, ?_, ?_⟩ <;>
          · intro e he
            simp at he
            rw [he]
            exact Visits.refl nid
      | false =>
        by_cases hch : childrenMapGet nodes nid = []
        · rw [layoutNode_succ_leaf fuel x y st hf hc hch]
          refine ⟨[(nid, ⟨x, y⟩)], [(nid, getNodeHeight node)], rfl, rfl, ?_, ?_⟩ <;>
            · intro e he
              simp at he
              rw [he]
              exact Visits.refl nid
        · rw [layoutNode_succ_children fuel x y st hf hc hch]
          simp only
          have aux : ∀ (cs : List NodeData), (∀ c ∈ cs, c ∈ childrenMapGet nodes nid) →
              ∀ (a t : Int) (s : LayoutState),
              ∃ (np : List (String × Position)) (nh : List (String × Int)),
                (cs.foldl (layoutStep nodes fuel (x + INDENT_X)) (a, t, s)).2.2.pos =
                  np ++ s.pos ∧
                (cs.foldl (layoutStep nodes fuel (x + INDENT_X)) (a, t, s)).2.2.hts =
                  nh ++ s.hts ∧
                (∀ e ∈ np, Visits nodes nid e.1) ∧
                (∀ e ∈ nh, Visits nodes nid e.1) := by
            intro cs
            induction cs with
            | nil => intro _ a t s; exact ⟨[], [], rfl, rfl, by simp, by simp⟩
            | cons c cs ihc =>
              intro hcs a t s
              simp only [List.foldl_cons, layoutStep]
              obtain ⟨np1, nh1, hp1, hh1, hv1, hw1⟩ := ih c.id (x + INDENT_X) a s
              obtain ⟨np2, nh2, hp2, hh2, hv2, hw2⟩ :=
                ihc (fun d hd => hcs d (List.mem_cons_of_mem c hd)) _ _
                  (layoutNode nodes fuel c.id (x + INDENT_X) a s).2
              refine ⟨np2 ++ np1, nh2 ++ nh1, ?_, ?_, ?_, ?_⟩
              · rw [hp2, hp1, List.append_assoc]
              · rw [hh2, hh1, List.append_assoc]
              · intro e he
                rcases List.mem_append.mp he with h2 | h1
                · exact hv2 e h2
                · exact Visits_lift hf hc (hcs c (List.mem_cons_self c cs)) (hv1 e h1)
              · intro e he
                rcases List.mem_append.mp he with h2 | h1
                · exact hw2 e h2
                · exact Visits_lift hf hc (hcs c (List.mem_cons_self c cs)) (hw1 e h1)
          obtain ⟨np, nh, hp, hh, hv, hw⟩ :=
            aux (childrenMapGet nodes nid) (fun c hcm => hcm) (y + getNodeHeight node + GAP_Y)
              (getNodeHeight node + GAP_Y)
              ⟨(nid, ⟨x, y⟩) :: st.pos, (nid, getNodeHeight node) :: st.hts⟩
          refine ⟨np ++ [(nid, ⟨x, y⟩)], nh ++ [(nid, getNodeHeight node)], ?_, ?_, ?_, ?_⟩
          · rw [hp]; simp
          · rw [hh]; simp
          · intro e he
            rcases List.mem_append.mp he with h1 | h2
            · exact hv e h1
            · simp at h2
              rw [h2]
              exact Visits.refl nid
          · intro e he
            rcases List.mem_append.mp he with h1 | h2
            · exact hw e h1
            · simp at h2
              rw [h2]
              exact Visits.refl nid

theorem lookupKV_isSome_iff {α : Type} (l : List (String × α)) (k : String) :
    (lookupKV l k).isSome = true ↔ ∃ e ∈ l, e.1 = k := by
  unfold lookupKV
  cases hfind : l.find? (fun e => decide (e.1 = k)) with
  | none =>
    simp only [Option.isSome_none, Bool.false_eq_true, false_iff]
    rintro ⟨e, he, hk⟩
    have := List.find?_eq_none.mp hfind e he
    simp [hk] at this
  | some e =>
    simp only [Option.isSome_some, true_iff]
    refine ⟨e, List.mem_of_find?_eq_some hfind, ?_⟩
    have := List.find?_some hfind
    simpa using this

theorem layoutPass_pos_keys (nodes : List NodeData) :
    ∀ e ∈ (layoutPass nodes).pos, ∃ r ∈ rootsOf nodes, Visits nodes r.id e.1 := by
  unfold layoutPass
  have aux : ∀ (rs : List NodeData) (st : LayoutState),
      ∀ e ∈ (rs.foldl (fun st root =>
          (layoutNode nodes nodes.length root.id root.position.x root.position.y st).2)
          st).pos,
        e ∈ st.pos ∨ ∃ r ∈ rs, Visits nodes r.id e.1 := by
    intro rs
    induction rs with
    | nil => intro st e he; exact Or.inl he
    | cons r rs ihr =>
      intro st e he
      simp only [List.foldl_cons] at he
      rcases ihr _ e he with hin | ⟨r', hr', hv⟩
      · obtain ⟨np, nh, hp, _, hkv, _⟩ :=
          layoutNode_writes nodes nodes.length r.id r.position.x r.position.y st
        rw [hp] at hin
        rcases List.mem_append.mp hin with hnew | hold
        · exact Or.inr ⟨r, List.mem_cons_self r rs, hkv e hnew⟩
        · exact Or.inl hold
      · exact Or.inr ⟨r', List.mem_cons_of_mem r hr', hv⟩
  intro e he
  rcases aux (rootsOf nodes) emptyLayoutState e he with h | h
  · simp [emptyLayoutState] at h
  · exact h

/-- Claim C7: the Layout Engine returns the same nodes with only position and
height possibly recomputed (every other field passes through unchanged), and
a node never visited by the traversal (one no root reaches) is passed
through entirely unchanged by the final rewrite. -/
theorem C7_frame (nodes : List NodeData) :
    List.Forall₂ (fun b a => sameButLayout b a) (computeSmartLayout nodes) nodes ∧
    (∀ n ∈ nodes, (¬ ∃ r ∈ rootsOf nodes, Visits nodes r.id n.id) →
      applyLayout (layoutPass nodes) n = n) := by
  constructor
  · unfold computeSmartLayout
    rw [List.forall₂_map_left_iff]
    rw [List.forall₂_same]
    intro n _
    have h := applyLayout_fields (layoutPass nodes) n
    exact ⟨h.1, h.2.1, h.2.2.1, h.2.2.2.1, h.2.2.2.2.1, h.2.2.2.2.2.1,
      h.2.2.2.2.2.2.1, h.2.2.2.2.2.2.2.1, h.2.2.2.2.2.2.2.2⟩
  · intro n _ hreach
    unfold applyLayout
    cases hlook : lookupKV (layoutPass nodes).pos n.id with
    | none => cases lookupKV (layoutPass nodes).hts n.id <;> rfl
    | some p =>
      exfalso
      have : (lookupKV (layoutPass nodes).pos n.id).isSome = true := by rw [hlook]; rfl
      obtain ⟨e, he, hk⟩ := (lookupKV_isSome_iff _ _).mp this
      obtain ⟨r, hr, hv⟩ := layoutPass_pos_keys nodes e he
      exact hreach ⟨r, hr, hk ▸ hv⟩

/-- Witness for C7_frame: the stray node keeps its prior position and height. -/
theorem C7_frame_witness :
    applyLayout (layoutPass c7Nodes) c7Stray = c7Stray := by
  refine (C7_frame c7Nodes).2 c7Stray (by decide) ?_
  rintro ⟨r, hr, hv⟩
  have hrid : r = c7Root := by
    rw [show rootsOf c7Nodes = [c7Root] from by decide] at hr
    simpa using hr
  subst hrid
  have key : ∀ k, Visits c7Nodes c7Root.id k → k = c7Root.id := by
    intro k h
    induction h with
    | refl => rfl
    | step hv2 hf hc hch ih =>
      subst ih
      rw [show childrenMapGet c7Nodes c7Root.id = [] from by decide] at hch
      simp at hch
  exact absurd (key c7Stray.id hv) (by decide)

theorem layoutKey_id {n m : NodeData} (h : layoutKey n = layoutKey m) : n.id = m.id := by
  simpa [layoutKey] using congrArg (fun t => t.1) h

theorem layoutKey_parentId {n m : NodeData} (h : layoutKey n = layoutKey m) :
    n.parentId = m.parentId := by
  simpa [layoutKey] using congrArg (fun t => t.2.1) h

theorem layoutKey_nodeType {n m : NodeData} (h : layoutKey n = layoutKey m) :
    n.nodeType = m.nodeType := by
  simpa [layoutKey] using congrArg (fun t => t.2.2.1) h

theorem layoutKey_collapsed {n m : NodeData} (h : layoutKey n = layoutKey m) :
    n.collapsed = m.collapsed := by
  simpa [layoutKey] using congrArg (fun t => t.2.2.2.1) h

theorem layoutKey_contentMinimized {n m : NodeData} (h : layoutKey n = layoutKey m) :
    n.contentMinimized = m.contentMinimized := by
  simpa [layoutKey] using congrArg (fun t => t.2.2.2.2.1) h

theorem layoutKey_data {n m : NodeData} (h : layoutKey n = layoutKey m) :
    n.data = m.data := by
  simpa [layoutKey] using congrArg (fun t => t.2.2.2.2.2) h

theorem getNodeHeight_keyEq {n m : NodeData} (h : layoutKey n = layoutKey m) :
    getNodeHeight n = getNodeHeight m := by
  unfold getNodeHeight
  rw [layoutKey_contentMinimized h, layoutKey_nodeType h, layoutKey_data h]

theorem keyEq_nil {B : List NodeData} (h : KeyEq [] B) : B = [] := by
  unfold KeyEq at h
  exact List.map_eq_nil_iff.mp h.symm

theorem keyEq_cons {a : NodeData} {A B : List NodeData} (h : KeyEq (a :: A) B) :
    ∃ b B', B = b :: B' ∧ layoutKey a = layoutKey b ∧ KeyEq A B' := by
  unfold KeyEq at h
  cases B with
  | nil => simp at h
  | cons b B' =>
    simp only [List.map_cons, List.cons.injEq] at h
    exact ⟨b, B', rfl, h.1, h.2⟩

theorem filter_keyEq (p : NodeData → Bool)
    (hp : ∀ n m, layoutKey n = layoutKey m → p n = p m) :
    ∀ (A B : List NodeData), KeyEq A B → KeyEq (A.filter p) (B.filter p) := by
  intro A
  induction A with
  | nil =>
    intro B hB
    rw [keyEq_nil hB]
    rfl
  | cons a A ih =>
    intro B hB
    obtain ⟨b, B', rfl, hab, hA⟩ := keyEq_cons hB
    simp only [List.filter_cons]
    rw [← hp a b hab]
    cases hpa : p a
    · simp only [Bool.false_eq_true, if_false]
      exact ih B' hA
    · simp only [if_true]
      unfold KeyEq
      simp only [List.map_cons]
      rw [hab]
      have := ih B' hA
      unfold KeyEq at this
      rw [this]

theorem childrenMapGet_keyEq {A B : List NodeData} (h : KeyEq A B) (pid : String) :
    KeyEq (childrenMapGet A pid) (childrenMapGet B pid) := by
  unfold childrenMapGet
  refine filter_keyEq _ ?_ A B h
  intro n m hnm
  rw [layoutKey_parentId hnm]

theorem rootsOf_keyEq {A B : List NodeData} (h : KeyEq A B) :
    KeyEq (rootsOf A) (rootsOf B) := by
  unfold rootsOf
  refine filter_keyEq _ ?_ A B h
  intro n m hnm
  rw [layoutKey_parentId hnm, layoutKey_nodeType hnm]

theorem find?_keyEq (k : String) :
    ∀ (A B : List NodeData), KeyEq A B →
      Option.map layoutKey (A.find? (fun n => decide (n.id = k))) =
        Option.map layoutKey (B.find? (fun n => decide (n.id = k))) := by
  intro A
  induction A with
  | nil =>
    intro B hB
    rw [keyEq_nil hB]
  | cons a A ih =>
    intro B hB
    obtain ⟨b, B', rfl, hab, hA⟩ := keyEq_cons hB
    simp only [List.find?_cons]
    rw [← layoutKey_id hab]
    cases hpa : decide (a.id = k)
    · exact ih B' hA
    · simpa using hab

theorem keyEq_length {A B : List NodeData} (h : KeyEq A B) : A.length = B.length := by
  unfold KeyEq at h
  simpa using congrArg List.length h

theorem layoutNode_keyEq :
    ∀ (fuel : Nat) {A B : List NodeData}, KeyEq A B →
      ∀ (nid : String) (x y : Int) (st : LayoutState),
        layoutNode A fuel nid x y st = layoutNode B fuel nid x y st := by
  intro fuel
  induction fuel with
  | zero => intros; rfl
  | succ fuel ih =>
    intro A B h nid x y st
    have hf := find?_keyEq nid A B h
    cases hfa : A.find? (fun n => decide (n.id = nid)) with
    | none =>
      rw [hfa] at hf
      cases hfb : B.find? (fun n => decide (n.id = nid)) with
      | none => rw [layoutNode_succ_none fuel x y st hfa, layoutNode_succ_none fuel x y st hfb]
      | some nb => rw [hfb] at hf; simp at hf
    | some na =>
      rw [hfa] at hf
      cases hfb : B.find? (fun n => decide (n.id = nid)) with
      | none => rw [hfb] at hf; simp at hf
      | some nb =>
        rw [hfb] at hf
        have hkey : layoutKey na = layoutKey nb := by simpa using hf
        have hh := getNodeHeight_keyEq hkey
        have hcol := layoutKey_collapsed hkey
        cases hcna : na.collapsed with
        | true =>
          have hcnb : nb.collapsed = true := by rw [← hcol, hcna]
          rw [layoutNode_succ_collapsed fuel x y st hfa hcna,
            layoutNode_succ_collapsed fuel x y st hfb hcnb, hh]
        | false =>
          have hcnb : nb.collapsed = false := by rw [← hcol, hcna]
          have hch := childrenMapGet_keyEq h nid
          by_cases hcha : childrenMapGet A nid = []
          · have hchb : childrenMapGet B nid = [] := by
              rw [hcha] at hch
              exact keyEq_nil hch
            rw [layoutNode_succ_leaf fuel x y st hfa hcna hcha,
              layoutNode_succ_leaf fuel x y st hfb hcnb hchb, hh]
          · have hchb : ¬ childrenMapGet B nid = [] := by
              intro h0
              apply hcha
              have hlen := keyEq_length hch
              rw [h0] at hlen
              simpa using List.length_eq_zero.mp hlen
            rw [layoutNode_succ_children fuel x y st hfa hcna hcha,
              layoutNode_succ_children fuel x y st hfb hcnb hchb, hh]
            have aux : ∀ (cs ds : List NodeData), KeyEq cs ds →
                ∀ (acc : Int × Int × LayoutState),
                  cs.foldl (layoutStep A fuel (x + INDENT_X)) acc =
                    ds.foldl (layoutStep B fuel (x + INDENT_X)) acc := by
              intro cs
              induction cs with
              | nil =>
                intro ds hds acc
                rw [keyEq_nil hds]
                rfl
              | cons c cs ihc =>
                intro ds hds acc
                obtain ⟨d, ds', rfl, hcd, hcs⟩ := keyEq_cons hds
                simp only [List.foldl_cons]
                have hstep : layoutStep A fuel (x + INDENT_X) acc c =
                    layoutStep B fuel (x + INDENT_X) acc d := by
                  unfold layoutStep
                  rw [layoutKey_id hcd, ih h]
                rw [hstep, ihc ds' hcs]
            rw [aux (childrenMapGet A nid) (childrenMapGet B nid) hch]

theorem layoutPass_eq_fold (nodes : List NodeData) :
    layoutPass nodes = (rootsOf nodes).foldl (layoutRootStep nodes) emptyLayoutState := rfl

theorem lookupKV_cons_self {α : Type} (k : String) (v : α) (l : List (String × α)) :
    lookupKV ((k, v) :: l) k = some v := by
  simp [lookupKV, List.find?_cons]

theorem lookupKV_append_not {α : Type} {l₁ : List (String × α)} {k : String}
    (h : ∀ e ∈ l₁, e.1 ≠ k) (l₂ : List (String × α)) :
    lookupKV (l₁ ++ l₂) k = lookupKV l₂ k := by
  unfold lookupKV
  rw [List.find?_append]
  have : l₁.find? (fun e => decide (e.1 = k)) = none :=
    List.find?_eq_none.mpr (fun e he => by simp [h e he])
  rw [this, Option.none_or]

theorem childrenMapGet_mem {nodes : List NodeData} {pid : String} {c : NodeData}
    (h : c ∈ childrenMapGet nodes pid) :
    c ∈ nodes ∧ truthyStr c.parentId = true ∧ c.parentId = some pid := by
  unfold childrenMapGet at h
  have := List.mem_filter.mp h
  refine ⟨this.1, ?_, ?_⟩
  · have := this.2
    simp only [Bool.and_eq_true] at this
    exact this.1
  · have := this.2
    simp only [Bool.and_eq_true, decide_eq_true_eq] at this
    exact this.2

theorem visits_key_cases {nodes : List NodeData} {a k : String} (h : Visits nodes a k) :
    k = a ∨ ∃ c ∈ nodes, c.id = k ∧ truthyStr c.parentId = true := by
  induction h with
  | refl => exact Or.inl rfl
  | step hv hf hc hch ih =>
    obtain ⟨hcm, htr, _⟩ := childrenMapGet_mem hch
    exact Or.inr ⟨_, hcm, rfl, htr⟩

theorem rootsOf_mem {nodes : List NodeData} {r : NodeData} (h : r ∈ rootsOf nodes) :
    r ∈ nodes ∧
      (decide (r.nodeType = NodeType.root) || !(truthyStr r.parentId)) = true := by
  unfold rootsOf at h
  exact ⟨(List.mem_filter.mp h).1, (List.mem_filter.mp h).2⟩

theorem truthy_node_id_ne_root {nodes : List NodeData} (hnd : NodupIds nodes)
    (hrnp : RootsNoParent nodes) {r c : NodeData} (hr : r ∈ rootsOf nodes)
    (hc : c ∈ nodes) (htr : truthyStr c.parentId = true) : c.id ≠ r.id := by
  intro heq
  obtain ⟨hrm, hpred⟩ := rootsOf_mem hr
  have hcr : c = r := nodupIds_eq_of_id_eq hnd hc hrm heq
  subst hcr
  rcases (Bool.or_eq_true _ _).mp hpred with hro | hnp
  · have := hrnp c hc (by simpa using hro)
    rw [htr] at this
    cases this
  · rw [htr] at hnp
    cases hnp

theorem layoutFold_writes (nodes : List NodeData) (fuel : Nat) (cx : Int) :
    ∀ (cs : List NodeData) (acc : Int × Int × LayoutState),
      ∃ (np : List (String × Position)) (nh : List (String × Int)),
        (cs.foldl (layoutStep nodes fuel cx) acc).2.2.pos = np ++ acc.2.2.pos ∧
        (cs.foldl (layoutStep nodes fuel cx) acc).2.2.hts = nh ++ acc.2.2.hts ∧
        (∀ e ∈ np, ∃ c ∈ cs, Visits nodes c.id e.1) ∧
        (∀ e ∈ nh, ∃ c ∈ cs, Visits nodes c.id e.1) := by
  intro cs
  induction cs with
  | nil => intro acc; exact ⟨[], [], rfl, rfl, by simp, by simp⟩
  | cons c cs ihc =>
    intro acc
    simp only [List.foldl_cons, layoutStep]
    obtain ⟨np1, nh1, hp1, hh1, hv1, hw1⟩ :=
      layoutNode_writes nodes fuel c.id cx acc.1 acc.2.2
    obtain ⟨np2, nh2, hp2, hh2, hv2, hw2⟩ :=
      ihc (acc.1 + ((layoutNode nodes fuel c.id cx acc.1 acc.2.2).1 + GAP_Y),
        acc.2.1 + ((layoutNode nodes fuel c.id cx acc.1 acc.2.2).1 + GAP_Y),
        (layoutNode nodes fuel c.id cx acc.1 acc.2.2).2)
    refine ⟨np2 ++ np1, nh2 ++ nh1, ?_, ?_, ?_, ?_⟩
    · rw [hp2]
      simp only
      rw [hp1, List.append_assoc]
    · rw [hh2]
      simp only
      rw [hh1, List.append_assoc]
    · intro e he
      rcases List.mem_append.mp he with h2 | h1
      · obtain ⟨d, hd, hv⟩ := hv2 e h2
        exact ⟨d, List.mem_cons_of_mem c hd, hv⟩
      · exact ⟨c, List.mem_cons_self c cs, hv1 e h1⟩
    · intro e he
      rcases List.mem_append.mp he with h2 | h1
      · obtain ⟨d, hd, hv⟩ := hw2 e h2
        exact ⟨d, List.mem_cons_of_mem c hd, hv⟩
      · exact ⟨c, List.mem_cons_self c cs, hw1 e h1⟩

theorem layoutNode_anchor {nodes : List NodeData} (hnd : NodupIds nodes)
    (hrnp : RootsNoParent nodes) {r : NodeData} (hr : r ∈ rootsOf nodes)
    (fuel : Nat) (x y : Int) (st : LayoutState) :
    lookupKV ((layoutNode nodes (fuel + 1) r.id x y st).2).pos r.id = some ⟨x, y⟩ ∧
    (lookupKV ((layoutNode nodes (fuel + 1) r.id x y st).2).hts r.id).isSome = true := by
  have hf : nodes.find? (fun n => decide (n.id = r.id)) = some r :=
    find?_id_of_mem hnd (rootsOf_mem hr).1
  cases hc : r.collapsed with
  | true =>
    rw [layoutNode_succ_collapsed fuel x y st hf hc]
    constructor
    · exact lookupKV_cons_self r.id ⟨x, y⟩ st.pos
    · rw [lookupKV_cons_self r.id (getNodeHeight r) st.hts]; rfl
  | false =>
    by_cases hch : childrenMapGet nodes r.id = []
    · rw [layoutNode_succ_leaf fuel x y st hf hc hch]
      constructor
      · exact lookupKV_cons_self r.id ⟨x, y⟩ st.pos
      · rw [lookupKV_cons_self r.id (getNodeHeight r) st.hts]; rfl
    · rw [layoutNode_succ_children fuel x y st hf hc hch]
      simp only
      obtain ⟨np, nh, hp, hh, hv, hw⟩ :=
        layoutFold_writes nodes fuel (x + INDENT_X) (childrenMapGet nodes r.id)
          (y + getNodeHeight r + GAP_Y, getNodeHeight r + GAP_Y,
           ⟨(r.id, ⟨x, y⟩) :: st.pos, (r.id, getNodeHeight r) :: st.hts⟩)
      have hkeys : ∀ {β : Type} (e : String × β),
          (∃ c ∈ childrenMapGet nodes r.id, Visits nodes c.id e.1) → e.1 ≠ r.id := by
        intro β e ⟨c, hcm, hvis⟩
        rcases visits_key_cases hvis with hk | ⟨d, hdm, hdk, hdt⟩
        · rw [hk]
          exact truthy_node_id_ne_root hnd hrnp hr (childrenMapGet_mem hcm).1
            (childrenMapGet_mem hcm).2.1
        · rw [← hdk]
          exact truthy_node_id_ne_root hnd hrnp hr hdm hdt
      constructor
      · rw [hp, lookupKV_append_not (fun e he => hkeys e (hv e he)) _]
        exact lookupKV_cons_self r.id ⟨x, y⟩ st.pos
      · rw [hh, lookupKV_append_not (fun e he => hkeys e (hw e he)) _,
          lookupKV_cons_self r.id (getNodeHeight r) st.hts]
        rfl

theorem layoutRootStep_preserve {nodes : List NodeData} (hnd : NodupIds nodes)
    (hrnp : RootsNoParent nodes) {r : NodeData} (hr : r ∈ rootsOf nodes)
    {r' : NodeData} (hne : r'.id ≠ r.id) (st : LayoutState) :
    lookupKV (layoutRootStep nodes st r').pos r.id = lookupKV st.pos r.id ∧
    lookupKV (layoutRootStep nodes st r').hts r.id = lookupKV st.hts r.id := by
  unfold layoutRootStep
  obtain ⟨np, nh, hp, hh, hv, hw⟩ :=
    layoutNode_writes nodes nodes.length r'.id r'.position.x r'.position.y st
  have hkeys : ∀ {β : Type} (e : String × β), Visits nodes r'.id e.1 → e.1 ≠ r.id := by
    intro β e hvis
    rcases visits_key_cases hvis with hk | ⟨d, hdm, hdk, hdt⟩
    · rw [hk]; exact hne
    · rw [← hdk]
      exact truthy_node_id_ne_root hnd hrnp hr hdm hdt
  constructor
  · rw [hp, lookupKV_append_not (fun e he => hkeys e (hv e he)) _]
  · rw [hh, lookupKV_append_not (fun e he => hkeys e (hw e he)) _]

theorem foldRoots_preserve {nodes : List NodeData} (hnd : NodupIds nodes)
    (hrnp : RootsNoParent nodes) {r : NodeData} (hr : r ∈ rootsOf nodes) :
    ∀ (rs : List NodeData), (∀ x ∈ rs, x.id ≠ r.id) →
      ∀ st, lookupKV ((rs.foldl (layoutRootStep nodes) st)).pos r.id =
          lookupKV st.pos r.id ∧
        lookupKV ((rs.foldl (layoutRootStep nodes) st)).hts r.id =
          lookupKV st.hts r.id := by
  intro rs
  induction rs with
  | nil => intro _ st; exact ⟨rfl, rfl⟩
  | cons r' rs ih =>
    intro hne st
    simp only [List.foldl_cons]
    have h1 := layoutRootStep_preserve hnd hrnp hr
      (hne r' (List.mem_cons_self r' rs)) st
    have h2 := ih (fun x hx => hne x (List.mem_cons_of_mem r' hx)) (layoutRootStep nodes st r')
    exact ⟨h2.1.trans h1.1, h2.2.trans h1.2⟩

theorem rootsOf_nodupIds {nodes : List NodeData} (hnd : NodupIds nodes) :
    ((rootsOf nodes).map NodeData.id).Nodup := by
  apply List.Nodup.sublist _ hnd
  exact List.Sublist.map NodeData.id (List.filter_sublist nodes)

theorem layoutPass_anchor {nodes : List NodeData} (hnd : NodupIds nodes)
    (hrnp : RootsNoParent nodes) {r : NodeData} (hr : r ∈ rootsOf nodes) :
    lookupKV (layoutPass nodes).pos r.id = some ⟨r.position.x, r.position.y⟩ ∧
    (lookupKV (layoutPass nodes).hts r.id).isSome = true := by
  have hlen : ∃ m, nodes.length = m + 1 := by
    cases hn : nodes with
    | nil =>
      rw [hn] at hr
      simp [rootsOf] at hr
    | cons a l => exact ⟨l.length, rfl⟩
  obtain ⟨m, hm⟩ := hlen
  have aux : ∀ (rs : List NodeData), (∀ x ∈ rs, x ∈ rootsOf nodes) →
      ((rs.map NodeData.id).Nodup) → r ∈ rs →
      ∀ st, lookupKV ((rs.foldl (layoutRootStep nodes) st)).pos r.id =
          some ⟨r.position.x, r.position.y⟩ ∧
        (lookupKV ((rs.foldl (layoutRootStep nodes) st)).hts r.id).isSome = true := by
    intro rs
    induction rs with
    | nil => intro _ _ h; cases h
    | cons r' rs ih =>
      intro hsub hnod hmem st
      simp only [List.foldl_cons]
      rcases List.mem_cons.mp hmem with rfl | hmem'
      · have hne : ∀ x ∈ rs, x.id ≠ r.id := by
          intro x hx heq
          simp only [List.map_cons, List.nodup_cons] at hnod
          exact hnod.1 (heq ▸ List.mem_map_of_mem NodeData.id hx)
        have hanch : lookupKV (layoutRootStep nodes st r).pos r.id =
              some ⟨r.position.x, r.position.y⟩ ∧
            (lookupKV (layoutRootStep nodes st r).hts r.id).isSome = true := by
          unfold layoutRootStep
          rw [hm]
          exact layoutNode_anchor hnd hrnp hr m r.position.x r.position.y st
        have hpres := foldRoots_preserve hnd hrnp hr rs hne (layoutRootStep nodes st r)
        exact ⟨hpres.1.trans hanch.1, by rw [hpres.2]; exact hanch.2⟩
      · exact ih (fun x hx => hsub x (List.mem_cons_of_mem r' hx))
          (by simp only [List.map_cons, List.nodup_cons] at hnod; exact hnod.2)
          hmem' (layoutRootStep nodes st r')
  rw [layoutPass_eq_fold]
  exact aux (rootsOf nodes) (fun x hx => hx) (rootsOf_nodupIds hnd) hr emptyLayoutState

theorem applyLayout_layoutKey (st : LayoutState) (n : NodeData) :
    layoutKey (applyLayout st n) = layoutKey n := by
  have h := applyLayout_fields st n
  unfold layoutKey
  rw [h.1, h.2.1, h.2.2.2.2.1, h.2.2.2.2.2.1, h.2.2.2.2.2.2.1, h.2.2.2.2.2.2.2.2]

theorem csl_keyEq (nodes : List NodeData) : KeyEq (computeSmartLayout nodes) nodes := by
  unfold KeyEq computeSmartLayout
  rw [List.map_map]
  exact List.map_congr_left (fun n _ => applyLayout_layoutKey _ n)

theorem rootsOf_map_applyLayout (st : LayoutState) (L : List NodeData) :
    rootsOf (L.map (applyLayout st)) = (rootsOf L).map (applyLayout st) := by
  unfold rootsOf
  rw [List.filter_map]
  congr 1
  apply List.filter_congr
  intro n _
  simp only [Function.comp_apply]
  rw [applyLayout_parentId, applyLayout_nodeType]

theorem applyLayout_root_position {nodes : List NodeData} (hnd : NodupIds nodes)
    (hrnp : RootsNoParent nodes) {r : NodeData} (hr : r ∈ rootsOf nodes) :
    (applyLayout (layoutPass nodes) r).position = r.position := by
  obtain ⟨hpos, hhts⟩ := layoutPass_anchor hnd hrnp hr
  obtain ⟨h, hh⟩ := Option.isSome_iff_exists.mp hhts
  unfold applyLayout
  rw [hpos, hh]

theorem applyLayout_idem (st : LayoutState) (n : NodeData) :
    applyLayout st (applyLayout st n) = applyLayout st n := by
  unfold applyLayout
  cases hp : lookupKV st.pos n.id with
  | none => cases hh : lookupKV st.hts n.id <;> simp [hp, hh]
  | some p =>
    cases hh : lookupKV st.hts n.id with
    | none => simp [hp, hh]
    | some h => simp [hp, hh]

theorem layoutPass_csl {nodes : List NodeData} (hnd : NodupIds nodes)
    (hrnp : RootsNoParent nodes) :
    layoutPass (computeSmartLayout nodes) = layoutPass nodes := by
  rw [layoutPass_eq_fold, layoutPass_eq_fold]
  have h1 : rootsOf (computeSmartLayout nodes) =
      (rootsOf nodes).map (applyLayout (layoutPass nodes)) :=
    rootsOf_map_applyLayout (layoutPass nodes) nodes
  rw [h1, List.foldl_map]
  apply List.foldl_ext
  intro st rt hrt
  unfold layoutRootStep
  have hid : (applyLayout (layoutPass nodes) rt).id = rt.id := applyLayout_id _ rt
  have hpos : (applyLayout (layoutPass nodes) rt).position = rt.position :=
    applyLayout_root_position hnd hrnp hrt
  have hlen : (computeSmartLayout nodes).length = nodes.length := by
    unfold computeSmartLayout
    exact List.length_map nodes _
  rw [hid, hpos, hlen, layoutNode_keyEq nodes.length (csl_keyEq nodes)]

/-- Claim C2: on a self-consistent node set (unique ids, root-typed nodes
not being anybody's child) the Layout Engine is idempotent: a second pass
without any intervening mutation reproduces exactly the same node list,
hence the same position and height for every node. -/
theorem C2_layout_idempotent (nodes : List NodeData) (hnd : NodupIds nodes)
    (hrnp : RootsNoParent nodes) :
    computeSmartLayout (computeSmartLayout nodes) = computeSmartLayout nodes := by
  show (computeSmartLayout nodes).map (applyLayout (layoutPass (computeSmartLayout nodes))) =
    computeSmartLayout nodes
  rw [layoutPass_csl hnd hrnp]
  show (nodes.map (applyLayout (layoutPass nodes))).map (applyLayout (layoutPass nodes)) =
    nodes.map (applyLayout (layoutPass nodes))
  rw [List.map_map]
  exact List.map_congr_left (fun n _ => applyLayout_idem _ n)

/-- Witness for C2_layout_idempotent on a concrete two-node forest. -/
theorem C2_layout_idempotent_witness :
    computeSmartLayout (computeSmartLayout c2Nodes) = computeSmartLayout c2Nodes :=
  C2_layout_idempotent c2Nodes (by unfold NodupIds; decide) (by unfold RootsNoParent; decide)

theorem visChildren_mem {nodes : List NodeData} {pid : String} {c : NodeData} :
    c ∈ visChildren nodes pid ↔ c ∈ nodes ∧ c.parentId = some pid := by
  unfold visChildren
  rw [List.mem_filter]
  simp

theorem visibleFrom_zero (nodes : List NodeData) (cur : NodeData) :
    visibleFrom nodes 0 cur = [] := rfl

theorem visibleFrom_succ (nodes : List NodeData) (fuel : Nat) (cur : NodeData) :
    visibleFrom nodes (fuel + 1) cur =
      cur.id ::
        (if cur.collapsed then []
         else ((visChildren nodes cur.id).map (visibleFrom nodes fuel)).flatten) := rfl

theorem visibleFrom_self (nodes : List NodeData) (fuel : Nat) (cur : NodeData) :
    cur.id ∈ visibleFrom nodes (fuel + 1) cur := by
  rw [visibleFrom_succ]
  exact List.mem_cons_self _ _

theorem visibleFrom_mem_succ {nodes : List NodeData} {fuel : Nat} {cur : NodeData}
    {k : String} :
    k ∈ visibleFrom nodes (fuel + 1) cur ↔
      k = cur.id ∨ (cur.collapsed = false ∧
        ∃ c ∈ visChildren nodes cur.id, k ∈ visibleFrom nodes fuel c) := by
  rw [visibleFrom_succ]
  cases hc : cur.collapsed with
  | true => simp
  | false =>
    simp only [Bool.false_eq_true, if_false, List.mem_cons, List.mem_flatten]
    constructor
    · rintro (h | h)
      · exact Or.inl h
      · obtain ⟨l, hl, hk⟩ := h
        obtain ⟨c, hc2, rfl⟩ := List.mem_map.mp hl
        exact Or.inr ⟨by simp, c, hc2, hk⟩
    · rintro (h | ⟨-, c, hc2, hk⟩)
      · exact Or.inl h
      · exact Or.inr ⟨_, List.mem_map_of_mem _ hc2, hk⟩

theorem visibleFrom_mono {nodes : List NodeData} :
    ∀ {fuel fuel' : Nat}, fuel ≤ fuel' → ∀ {cur : NodeData} {k : String},
      k ∈ visibleFrom nodes fuel cur → k ∈ visibleFrom nodes fuel' cur := by
  intro fuel
  induction fuel with
  | zero => intro fuel' _ cur k h; rw [visibleFrom_zero] at h; cases h
  | succ fuel ih =>
    intro fuel' hle cur k h
    obtain ⟨m, rfl⟩ : ∃ m, fuel' = m + 1 :=
      ⟨fuel' - 1, by cases fuel' with
        | zero => cases hle
        | succ m => rfl⟩
    rcases visibleFrom_mem_succ.mp h with h1 | ⟨hcol, c, hcm, hk⟩
    · rw [h1]; exact visibleFrom_self nodes m cur
    · exact visibleFrom_mem_succ.mpr
        (Or.inr ⟨hcol, c, hcm, ih (Nat.le_of_succ_le_succ hle) hk⟩)

theorem visibleFrom_step_lift {nodes : List NodeData} (hnd : NodupIds nodes)
    {p q : NodeData} (hp : p ∈ nodes) (hq : q ∈ nodes)
    (hcol : p.collapsed = false) (hpar : q.parentId = some p.id) :
    ∀ {fuel : Nat} {r : NodeData}, r ∈ nodes →
      p.id ∈ visibleFrom nodes fuel r → q.id ∈ visibleFrom nodes (fuel + 1) r := by
  intro fuel
  induction fuel with
  | zero => intro r _ h; rw [visibleFrom_zero] at h; cases h
  | succ fuel ih =>
    intro r hr h
    rcases visibleFrom_mem_succ.mp h with h1 | ⟨hrc, c, hcm, hk⟩
    · have hrp : r = p := nodupIds_eq_of_id_eq hnd hr hp h1.symm
      subst hrp
      refine visibleFrom_mem_succ.mpr (Or.inr ⟨hcol, q, ?_, ?_⟩)
      · exact visChildren_mem.mpr ⟨hq, hpar⟩
      · exact visibleFrom_self nodes fuel q
    · refine visibleFrom_mem_succ.mpr (Or.inr ⟨hrc, c, hcm, ?_⟩)
      exact ih (visChildren_mem.mp hcm).1 hk

theorem visChain_target_mem {nodes : List NodeData} {r c : NodeData} {ch : List NodeData}
    (h : VisChain nodes r c ch) (hr : r ∈ nodes) : c ∈ nodes := by
  cases h with
  | refl => exact hr
  | step hch hcol hcm hpar => exact hcm

theorem visChain_chain_mem {nodes : List NodeData} {r c : NodeData} {ch : List NodeData}
    (h : VisChain nodes r c ch) : ∀ a ∈ ch, a ∈ nodes := by
  induction h with
  | refl => intro a ha; cases ha
  | step hch hcol hcm hpar ih =>
    intro a ha
    rcases List.mem_cons.mp ha with rfl | ha'
    · exact hcm
    · exact ih a ha'

theorem visChain_to_visibleFrom {nodes : List NodeData} (hnd : NodupIds nodes) :
    ∀ {r c : NodeData} {ch : List NodeData}, VisChain nodes r c ch → r ∈ nodes →
      ∀ {fuel : Nat}, ch.length + 1 ≤ fuel → c.id ∈ visibleFrom nodes fuel r := by
  intro r c ch h
  induction h with
  | refl =>
    intro hr fuel hfuel
    obtain ⟨m, rfl⟩ : ∃ m, fuel = m + 1 :=
      ⟨fuel - 1, by cases fuel with
        | zero => cases hfuel
        | succ m => rfl⟩
    exact visibleFrom_self nodes m r
  | step hch hcol hcm hpar ih =>
    intro hr fuel hfuel
    obtain ⟨m, rfl⟩ : ∃ m, fuel = m + 1 :=
      ⟨fuel - 1, by cases fuel with
        | zero => cases hfuel
        | succ m => rfl⟩
    have hp : _ ∈ nodes := visChain_target_mem hch hr
    exact visibleFrom_step_lift hnd hp hcm hcol hpar hr
      (ih hr (Nat.le_of_succ_le_succ hfuel))

theorem nodup_subset_length {α : Type} [DecidableEq α] {l l' : List α}
    (h : l.Nodup) (hs : l ⊆ l') : l.length ≤ l'.length := by
  have h1 : l.toFinset.card = l.length := List.toFinset_card_of_nodup h
  have h2 : l.toFinset ⊆ l'.toFinset := by
    intro a ha
    rw [List.mem_toFinset] at ha ⊢
    exact hs ha
  have h3 := Finset.card_le_card h2
  have h4 : l'.toFinset.card ≤ l'.length := l'.toFinset_card_le
  omega

theorem visChain_pairwise {nodes : List NodeData} (hlvl : LevelOk nodes) :
    ∀ {r c : NodeData} {ch : List NodeData}, VisChain nodes r c ch → r ∈ nodes →
      (ch ++ [r]).Pairwise (fun a b => b.level < a.level) ∧
        (ch ++ [r]).head? = some c := by
  intro r c ch h
  induction h with
  | refl =>
    intro hr
    constructor
    · simp
    · rfl
  | step hch hcol hcm hpar ih =>
    intro hr
    obtain ⟨hpw, hhd⟩ := ih hr
    rename_i p c' chx
    have hp : p ∈ nodes := visChain_target_mem hch hr
    have hlev : c'.level = p.level + 1 := hlvl c' hcm p hp hpar
    cases hL : chx ++ [r] with
    | nil => rw [hL] at hhd; cases hhd
    | cons p' t =>
      rw [hL] at hhd hpw
      have hpp : p' = p := by
        simp only [List.head?_cons, Option.some.injEq] at hhd
        exact hhd
      subst hpp
      constructor
      · show ((c' :: chx) ++ [r]).Pairwise _
        rw [List.cons_append, hL]
        refine List.pairwise_cons.mpr ⟨?_, hpw⟩
        intro a ha
        rcases List.mem_cons.mp ha with rfl | hat
        · omega
        · have := (List.pairwise_cons.mp hpw).1 a hat
          omega
      · rw [List.cons_append]
        rfl

theorem visChain_length_bound {nodes : List NodeData}
    (hlvl : LevelOk nodes) {r c : NodeData} {ch : List NodeData}
    (h : VisChain nodes r c ch) (hr : r ∈ nodes) : ch.length + 1 ≤ nodes.length := by
  have hpw := (visChain_pairwise hlvl h hr).1
  have hnodup : (ch ++ [r]).Nodup := by
    refine hpw.imp ?_
    intro a b hab
    intro heq
    rw [heq] at hab
    omega
  have hsub : (ch ++ [r]) ⊆ nodes := by
    intro a ha
    rcases List.mem_append.mp ha with h1 | h2
    · exact visChain_chain_mem h a h1
    · rw [List.mem_singleton.mp h2]; exact hr
  have := nodup_subset_length hnodup hsub
  simpa using this

theorem visChain_compose {nodes : List NodeData} {c tgt : NodeData} {ch : List NodeData}
    (h : VisChain nodes c tgt ch) :
    ∀ {r : NodeData}, r.collapsed = false → c ∈ nodes → c.parentId = some r.id →
      VisChain nodes r tgt (ch ++ [c]) := by
  induction h with
  | refl =>
    intro r hcol hcm hpar
    exact VisChain.step (VisChain.refl r) hcol hcm hpar
  | step hch hcol2 hcm2 hpar2 ih =>
    intro r hcol hcm hpar
    exact VisChain.step (ih hcol hcm hpar) hcol2 hcm2 hpar2

theorem visibleFrom_to_visChain {nodes : List NodeData} :
    ∀ {fuel : Nat} {r : NodeData} {k : String}, k ∈ visibleFrom nodes fuel r →
      ∃ (c : NodeData) (ch : List NodeData), VisChain nodes r c ch ∧ c.id = k := by
  intro fuel
  induction fuel with
  | zero => intro r k h; rw [visibleFrom_zero] at h; cases h
  | succ fuel ih =>
    intro r k h
    rcases visibleFrom_mem_succ.mp h with h1 | ⟨hcol, c, hcm, hk⟩
    · exact ⟨r, [], VisChain.refl r, h1.symm⟩
    · obtain ⟨tgt, ch, hchain, htgt⟩ := ih hk
      obtain ⟨hcmem, hcpar⟩ := visChildren_mem.mp hcm
      exact ⟨tgt, ch ++ [c], visChain_compose hchain hcol hcmem hcpar, htgt⟩

theorem visibleIdSet_mem {nodes : List NodeData} {k : String} :
    k ∈ visibleIdSet nodes ↔
      ∃ r ∈ rootsOf nodes, k ∈ visibleFrom nodes nodes.length r := by
  unfold visibleIdSet
  rw [List.mem_flatten]
  constructor
  · rintro ⟨l, hl, hk⟩
    obtain ⟨r, hr, rfl⟩ := List.mem_map.mp hl
    exact ⟨r, hr, hk⟩
  · rintro ⟨r, hr, hk⟩
    exact ⟨_, List.mem_map_of_mem _ hr, hk⟩

/- The main characterisation of the Visibility Resolver: on a
self-consistent forest, an id is in the visible set exactly when some root
reaches a node carrying that id through non-collapsed ancestors. -/
theorem visibleIdSet_iff_chain {nodes : List NodeData} (hnd : NodupIds nodes)
    (hlvl : LevelOk nodes) {k : String} :
    k ∈ visibleIdSet nodes ↔
      ∃ r ∈ rootsOf nodes, ∃ (c : NodeData) (ch : List NodeData),
        VisChain nodes r c ch ∧ c.id = k := by
  constructor
  · intro h
    obtain ⟨r, hr, hk⟩ := visibleIdSet_mem.mp h
    obtain ⟨c, ch, hchain, hck⟩ := visibleFrom_to_visChain hk
    exact ⟨r, hr, c, ch, hchain, hck⟩
  · rintro ⟨r, hr, c, ch, hchain, hck⟩
    refine visibleIdSet_mem.mpr ⟨r, hr, ?_⟩
    rw [← hck]
    exact visChain_to_visibleFrom hnd hchain (rootsOf_mem hr).1
      (visChain_length_bound hlvl hchain (rootsOf_mem hr).1)

theorem visChildren_keyEq {A B : List NodeData} (h : KeyEq A B) (pid : String) :
    KeyEq (visChildren A pid) (visChildren B pid) := by
  unfold visChildren
  refine filter_keyEq _ ?_ A B h
  intro n m hnm
  rw [layoutKey_parentId hnm]

theorem visibleFrom_keyEq {A B : List NodeData} (h : KeyEq A B) :
    ∀ (fuel : Nat) (curA curB : NodeData), layoutKey curA = layoutKey curB →
      visibleFrom A fuel curA = visibleFrom B fuel curB := by
  intro fuel
  induction fuel with
  | zero => intros; rfl
  | succ fuel ih =>
    intro curA curB hcur
    rw [visibleFrom_succ, visibleFrom_succ, layoutKey_id hcur, layoutKey_collapsed hcur]
    congr 1
    cases hc : curB.collapsed with
    | true => rfl
    | false =>
      simp only [Bool.false_eq_true, if_false]
      congr 1
      have hch := visChildren_keyEq h (curB.id)
      revert hch
      generalize visChildren A curB.id = csA
      generalize visChildren B curB.id = csB
      intro hch
      induction csA generalizing csB with
      | nil => rw [keyEq_nil hch]; rfl
      | cons a as iha =>
        obtain ⟨b, bs, rfl, hab, has⟩ := keyEq_cons hch
        simp only [List.map_cons]
        rw [ih a b hab, iha bs has]

theorem visibleIdSet_keyEq {A B : List NodeData} (h : KeyEq A B) :
    visibleIdSet A = visibleIdSet B := by
  unfold visibleIdSet
  rw [keyEq_length h]
  have hr := rootsOf_keyEq h
  revert hr
  generalize rootsOf A = rsA
  generalize rootsOf B = rsB
  intro hr
  congr 1
  induction rsA generalizing rsB with
  | nil => rw [keyEq_nil hr]; rfl
  | cons a as iha =>
    obtain ⟨b, bs, rfl, hab, has⟩ := keyEq_cons hr
    simp only [List.map_cons]
    rw [visibleFrom_keyEq h B.length a b hab, iha bs has]

theorem filter_mem_ids_keyEq :
    ∀ {A B : List NodeData}, KeyEq A B → ∀ (s : List String),
      (A.filter (fun n => decide (n.id ∈ s))).map NodeData.id =
        (B.filter (fun n => decide (n.id ∈ s))).map NodeData.id := by
  intro A
  induction A with
  | nil =>
    intro B h s
    rw [keyEq_nil h]
  | cons a as iha =>
    intro B h s
    obtain ⟨b, bs, rfl, hab, has⟩ := keyEq_cons h
    simp only [List.filter_cons]
    rw [layoutKey_id hab]
    cases hd : decide (b.id ∈ s) with
    | false =>
      simp only [Bool.false_eq_true, if_false]
      exact iha has s
    | true =>
      simp only [if_true, List.map_cons]
      rw [layoutKey_id hab, iha has s]

theorem visibleNodes_ids_keyEq {A B : List NodeData} (h : KeyEq A B) :
    (visibleNodes A).map NodeData.id = (visibleNodes B).map NodeData.id := by
  unfold visibleNodes
  rw [visibleIdSet_keyEq h]
  exact filter_mem_ids_keyEq h (visibleIdSet B)

theorem toggleCollapseById_eq (i : String) (m : NodeData) (h : m.id = i) :
    toggleCollapseById i m = { m with collapsed := !m.collapsed } := by
  unfold toggleCollapseById
  rw [if_pos h]

theorem toggle_toggle (nodes : List NodeData) (i : String) :
    (nodes.map (toggleCollapseById i)).map (toggleCollapseById i) = nodes := by
  rw [List.map_map]
  have : ∀ m : NodeData, toggleCollapseById i (toggleCollapseById i m) = m := by
    intro m
    by_cases h : m.id = i
    · rw [toggleCollapseById_eq i m h,
        toggleCollapseById_eq i { m with collapsed := !m.collapsed } h]
      simp
    · rw [toggleCollapseById_ne i m h, toggleCollapseById_ne i m h]
  calc nodes.map (toggleCollapseById i ∘ toggleCollapseById i)
      = nodes.map id := List.map_congr_left (fun m _ => this m)
    _ = nodes := List.map_id nodes

theorem toggle_layoutKey_congr {i : String} {a b : NodeData}
    (h : layoutKey a = layoutKey b) :
    layoutKey (toggleCollapseById i a) = layoutKey (toggleCollapseById i b) := by
  by_cases ha : a.id = i
  · have hb : b.id = i := by rw [← layoutKey_id h]; exact ha
    rw [toggleCollapseById_eq i a ha, toggleCollapseById_eq i b hb]
    unfold layoutKey at h ⊢
    simp only [Prod.mk.injEq] at h ⊢
    exact ⟨h.1, h.2.1, h.2.2.1, by rw [h.2.2.2.1], h.2.2.2.2⟩
  · have hb : ¬ b.id = i := by rw [← layoutKey_id h]; exact ha
    rw [toggleCollapseById_ne i a ha, toggleCollapseById_ne i b hb]
    exact h

theorem keyEq_map_toggle {A B : List NodeData} (h : KeyEq A B) (i : String) :
    KeyEq (A.map (toggleCollapseById i)) (B.map (toggleCollapseById i)) := by
  induction A generalizing B with
  | nil => rw [keyEq_nil h]; rfl
  | cons a as iha =>
    obtain ⟨b, bs, rfl, hab, has⟩ := keyEq_cons h
    unfold KeyEq
    simp only [List.map_cons]
    rw [toggle_layoutKey_congr hab]
    have := iha has
    unfold KeyEq at this
    rw [this]

theorem map_toggle_map_id (nodes : List NodeData) (i : String) :
    (nodes.map (toggleCollapseById i)).map NodeData.id = nodes.map NodeData.id := by
  rw [List.map_map]
  exact List.map_congr_left (fun m _ => toggleCollapseById_id i m)

theorem nodupIds_map_toggle {nodes : List NodeData} (h : NodupIds nodes) (i : String) :
    NodupIds (nodes.map (toggleCollapseById i)) := by
  unfold NodupIds
  rw [map_toggle_map_id]
  exact h

theorem levelOk_map_toggle {nodes : List NodeData} (h : LevelOk nodes) (i : String) :
    LevelOk (nodes.map (toggleCollapseById i)) := by
  intro c hc p hp hpar
  obtain ⟨c0, hc0, rfl⟩ := List.mem_map.mp hc
  obtain ⟨p0, hp0, rfl⟩ := List.mem_map.mp hp
  rw [toggleCollapseById_parentId, toggleCollapseById_id] at hpar
  rw [toggleCollapseById_level, toggleCollapseById_level]
  exact h c0 hc0 p0 hp0 hpar

theorem rootsOf_map_toggle (nodes : List NodeData) (i : String) :
    rootsOf (nodes.map (toggleCollapseById i)) = (rootsOf nodes).map (toggleCollapseById i) := by
  unfold rootsOf
  rw [List.filter_map]
  congr 1
  apply List.filter_congr
  intro m _
  simp only [Function.comp_apply]
  rw [toggleCollapseById_parentId, toggleCollapseById_nodeType]

theorem descendant_mem {nodes : List NodeData} {x : String} {c : NodeData}
    (h : Descendant nodes x c) : c ∈ nodes := by
  cases h with
  | base hm _ => exact hm
  | step _ hm _ => exact hm

theorem root_not_descendant {nodes : List NodeData} (hrnp : RootsNoParent nodes)
    (hids : IdsNonEmpty nodes) {x : String} (hx : x ≠ "") {r0 : NodeData}
    (hr : r0 ∈ rootsOf nodes) : ¬ Descendant nodes x r0 := by
  intro h
  obtain ⟨hrm, hpred⟩ := rootsOf_mem hr
  have htr : truthyStr r0.parentId = true := by
    cases h with
    | base hm hp => rw [hp]; unfold truthyStr; simp [hx]
    | step hd hm hp =>
      rw [hp]
      unfold truthyStr
      simp [hids _ (descendant_mem hd)]
  rcases (Bool.or_eq_true _ _).mp hpred with hro | hnp
  · have := hrnp r0 hrm (by simpa using hro)
    rw [htr] at this
    cases this
  · rw [htr] at hnp
    cases hnp

theorem toggled_chain_not_desc {nodes : List NodeData} {n : NodeData}
    (hnd : NodupIds nodes) (hrnp : RootsNoParent nodes) (hids : IdsNonEmpty nodes)
    (hn : n ∈ nodes) (hncol : n.collapsed = false) :
    ∀ {r' tgt' : NodeData} {ch' : List NodeData},
      VisChain (nodes.map (toggleCollapseById n.id)) r' tgt' ch' →
      r' ∈ rootsOf (nodes.map (toggleCollapseById n.id)) →
      ∀ q ∈ nodes, q.id = tgt'.id → ¬ Descendant nodes n.id q := by
  intro r' tgt' ch' hchain
  induction hchain with
  | refl =>
    intro hr' q hq hqid hdesc
    rw [rootsOf_map_toggle] at hr'
    obtain ⟨r0, hr0, rfl⟩ := List.mem_map.mp hr'
    rw [toggleCollapseById_id] at hqid
    have : q = r0 := nodupIds_eq_of_id_eq hnd hq (rootsOf_mem hr0).1 hqid
    subst this
    exact root_not_descendant hrnp hids (hids n hn) hr0 hdesc
  | step hch hcol hcm hpar ih =>
    intro hr' q hq hqid hdesc
    rename_i p' c' chx
    obtain ⟨c0, hc0, rfl⟩ := List.mem_map.mp hcm
    rw [toggleCollapseById_id] at hqid
    have hqc : q = c0 := nodupIds_eq_of_id_eq hnd hq hc0 hqid
    subst hqc
    cases hdesc with
    | base hm hp =>
      rw [toggleCollapseById_parentId, hp] at hpar
      have hpid : p'.id = n.id := by
        have := hpar
        simp only [Option.some.injEq] at this
        exact this.symm
      have hp'T : p' ∈ nodes.map (toggleCollapseById n.id) :=
        visChain_target_mem hch (rootsOf_mem hr').1
      obtain ⟨p0, hp0, rfl⟩ := List.mem_map.mp hp'T
      rw [toggleCollapseById_id] at hpid
      have hp0n : p0 = n := nodupIds_eq_of_id_eq hnd hp0 hn hpid
      rw [hp0n] at hcol
      rw [toggleCollapseById_eq n.id n rfl] at hcol
      simp [hncol] at hcol
    | step hd hm hp =>
      rename_i w
      rw [toggleCollapseById_parentId, hp] at hpar
      have hw : w.id = p'.id := by
        have := hpar
        simp only [Option.some.injEq] at this
        exact this
      exact ih hr' w (descendant_mem hd) hw hd

theorem toggled_chain_to_chain {nodes : List NodeData} {n : NodeData}
    (hnd : NodupIds nodes) (hn : n ∈ nodes) (hncol : n.collapsed = false) :
    ∀ {r' tgt' : NodeData} {ch' : List NodeData},
      VisChain (nodes.map (toggleCollapseById n.id)) r' tgt' ch' →
      r' ∈ nodes.map (toggleCollapseById n.id) →
      ∀ r ∈ nodes, r.id = r'.id →
        ∃ tgt ∈ nodes, tgt.id = tgt'.id ∧ ∃ ch, VisChain nodes r tgt ch := by
  intro r' tgt' ch' hchain
  induction hchain with
  | refl =>
    intro _ r hr hrid
    exact ⟨r, hr, hrid, [], VisChain.refl r⟩
  | step hch hcol hcm hpar ih =>
    intro hr'T r hr hrid
    rename_i p' c' chx
    obtain ⟨tp, htp, htpid, ch, hchN⟩ := ih hr'T r hr hrid
    obtain ⟨c0, hc0, rfl⟩ := List.mem_map.mp hcm
    rw [toggleCollapseById_parentId] at hpar
    have hp'T : p' ∈ nodes.map (toggleCollapseById n.id) :=
      visChain_target_mem hch hr'T
    obtain ⟨p0, hp0, rfl⟩ := List.mem_map.mp hp'T
    rw [toggleCollapseById_id] at htpid hpar
    have hp0tp : p0 = tp := nodupIds_eq_of_id_eq hnd hp0 htp htpid.symm
    have htpcol : tp.collapsed = false := by
      by_cases htpn : tp.id = n.id
      · exfalso
        have htn : tp = n := nodupIds_eq_of_id_eq hnd htp hn htpn
        rw [hp0tp, htn] at hcol
        rw [toggleCollapseById_eq n.id n rfl] at hcol
        simp [hncol] at hcol
      · rw [hp0tp] at hcol
        rw [toggleCollapseById_ne n.id tp htpn] at hcol
        exact hcol
    refine ⟨c0, hc0, by rw [toggleCollapseById_id],
      c0 :: ch, VisChain.step hchN htpcol hc0 ?_⟩
    rw [hpar, htpid]

theorem chain_to_toggled_chain {nodes : List NodeData} {n : NodeData} :
    ∀ {r c : NodeData} {ch : List NodeData}, VisChain nodes r c ch →
      ¬ Descendant nodes n.id c →
      VisChain (nodes.map (toggleCollapseById n.id)) (toggleCollapseById n.id r)
        (toggleCollapseById n.id c) (ch.map (toggleCollapseById n.id)) := by
  intro r c ch hchain
  induction hchain with
  | refl => intro _; exact VisChain.refl _
  | step hch hcol hcm hpar ih =>
    intro hnd2
    rename_i p c' chx
    have hndp : ¬ Descendant nodes n.id p := fun hd => hnd2 (Descendant.step hd hcm hpar)
    have hpn : p.id ≠ n.id := by
      intro he
      exact hnd2 (Descendant.base hcm (by rw [hpar, he]))
    refine VisChain.step (ih hndp) ?_ (List.mem_map_of_mem _ hcm) ?_
    · rw [toggleCollapseById_ne n.id p hpn]
      exact hcol
    · rw [toggleCollapseById_parentId, toggleCollapseById_id]
      exact hpar

theorem vis_ids_mem {L : List NodeData} {k : String} :
    k ∈ (visibleNodes L).map NodeData.id ↔
      (k ∈ visibleIdSet L ∧ ∃ m ∈ L, m.id = k) := by
  unfold visibleNodes
  rw [List.mem_map]
  constructor
  · rintro ⟨m, hm, rfl⟩
    have := List.mem_filter.mp hm
    exact ⟨by simpa using this.2, m, this.1, rfl⟩
  · rintro ⟨hset, m, hm, rfl⟩
    exact ⟨m, List.mem_filter.mpr ⟨hm, by simpa using hset⟩, rfl⟩

theorem vis_ids_toggle (nodes : List NodeData) (i : String) :
    (visibleNodes (handleToggleCollapse nodes i)).map NodeData.id =
      (visibleNodes (nodes.map (toggleCollapseById i))).map NodeData.id :=
  visibleNodes_ids_keyEq (csl_keyEq _)

/-- Claim C3: on a self-consistent forest, collapsing a non-collapsed node n
(with descendants) removes exactly n's strict descendants from the
Visibility Resolver's output, and toggling n back restores exactly the
visible set from before the two toggles. -/
theorem C3_collapse_round_trip (nodes : List NodeData) (hnd : NodupIds nodes)
    (hlvl : LevelOk nodes) (hrnp : RootsNoParent nodes) (hids : IdsNonEmpty nodes)
    {n : NodeData} (hn : n ∈ nodes) (hncol : n.collapsed = false)
    (_hdesc : ∃ c, Descendant nodes n.id c) :
    (∀ k, k ∈ (visibleNodes (handleToggleCollapse nodes n.id)).map NodeData.id ↔
      (k ∈ (visibleNodes nodes).map NodeData.id ∧
        ¬ ∃ c, Descendant nodes n.id c ∧ c.id = k)) ∧
    (visibleNodes (handleToggleCollapse (handleToggleCollapse nodes n.id) n.id)).map
        NodeData.id = (visibleNodes nodes).map NodeData.id := by
  have hndT : NodupIds (nodes.map (toggleCollapseById n.id)) := nodupIds_map_toggle hnd n.id
  have hlvlT : LevelOk (nodes.map (toggleCollapseById n.id)) := levelOk_map_toggle hlvl n.id
  constructor
  · intro k
    rw [vis_ids_toggle nodes n.id, vis_ids_mem, vis_ids_mem]
    have hmemiff : (∃ m ∈ nodes.map (toggleCollapseById n.id), m.id = k) ↔
        ∃ m ∈ nodes, m.id = k := by
      constructor
      · rintro ⟨m, hm, rfl⟩
        obtain ⟨m0, hm0, rfl⟩ := List.mem_map.mp hm
        exact ⟨m0, hm0, (toggleCollapseById_id n.id m0).symm⟩
      · rintro ⟨m, hm, rfl⟩
        exact ⟨toggleCollapseById n.id m, List.mem_map_of_mem _ hm,
          toggleCollapseById_id n.id m⟩
    constructor
    · rintro ⟨hkT, hmem⟩
      obtain ⟨r', hr', c', ch', hchain', hck⟩ :=
        (visibleIdSet_iff_chain hndT hlvlT).mp hkT
      have hr'O := hr'
      have hr'T : r' ∈ nodes.map (toggleCollapseById n.id) := (rootsOf_mem hr').1
      rw [rootsOf_map_toggle] at hr'
      obtain ⟨r0, hr0, rfl⟩ := List.mem_map.mp hr'
      have hr0m : r0 ∈ nodes := (rootsOf_mem hr0).1
      obtain ⟨tgt, htgt, htgtid, ch, hchN⟩ :=
        toggled_chain_to_chain hnd hn hncol hchain' hr'T r0 hr0m
          (toggleCollapseById_id n.id r0).symm
      refine ⟨⟨?_, hmemiff.mp hmem⟩, ?_⟩
      · exact (visibleIdSet_iff_chain hnd hlvl).mpr
          ⟨r0, hr0, tgt, ch, hchN, htgtid.trans hck⟩
      · rintro ⟨c, hcdesc, hcid⟩
        exact toggled_chain_not_desc hnd hrnp hids hn hncol hchain' hr'O c
          (descendant_mem hcdesc) (hcid.trans hck.symm) hcdesc
    · rintro ⟨⟨hkN, hmem⟩, hnd3⟩
      obtain ⟨r, hr, c, ch, hchain, hck⟩ := (visibleIdSet_iff_chain hnd hlvl).mp hkN
      have hcnd : ¬ Descendant nodes n.id c := fun hd => hnd3 ⟨c, hd, hck⟩
      have hchT := chain_to_toggled_chain hchain hcnd
      refine ⟨?_, hmemiff.mpr hmem⟩
      refine (visibleIdSet_iff_chain hndT hlvlT).mpr
        ⟨toggleCollapseById n.id r, ?_, toggleCollapseById n.id c, _, hchT, ?_⟩
      · rw [rootsOf_map_toggle]
        exact List.mem_map_of_mem _ hr
      · rw [toggleCollapseById_id]
        exact hck
  · calc (visibleNodes (handleToggleCollapse (handleToggleCollapse nodes n.id) n.id)).map
          NodeData.id
        = (visibleNodes ((handleToggleCollapse nodes n.id).map
            (toggleCollapseById n.id))).map NodeData.id :=
          vis_ids_toggle (handleToggleCollapse nodes n.id) n.id
      _ = (visibleNodes (((nodes.map (toggleCollapseById n.id)).map
            (toggleCollapseById n.id)))).map NodeData.id :=
          visibleNodes_ids_keyEq
            (keyEq_map_toggle (csl_keyEq (nodes.map (toggleCollapseById n.id))) n.id)
      _ = (visibleNodes nodes).map NodeData.id := by rw [toggle_toggle]

theorem C3_collapse_round_trip_witness :
    (visibleNodes (handleToggleCollapse (handleToggleCollapse c3Nodes "a3") "a3")).map
        NodeData.id = (visibleNodes c3Nodes).map NodeData.id :=
  (C3_collapse_round_trip c3Nodes
    (by unfold NodupIds; decide)
    (by unfold LevelOk; decide)
    (by unfold RootsNoParent; decide)
    (by unfold IdsNonEmpty; decide)
    (show c3Mid ∈ c3Nodes by decide)
    (by decide)
    ⟨c3Leaf, Descendant.base (by decide) rfl⟩).2

theorem visChain_append {nodes L : List NodeData} :
    ∀ {r c : NodeData} {ch : List NodeData}, VisChain nodes r c ch →
      VisChain (nodes ++ L) r c ch := by
  intro r c ch h
  induction h with
  | refl => exact VisChain.refl r
  | step hch hcol hcm hpar ih =>
    exact VisChain.step ih hcol (List.mem_append_left L hcm) hpar

theorem chain_map_open {nodes : List NodeData} {f : NodeData → NodeData}
    (hid : ∀ m, (f m).id = m.id) (hpid : ∀ m, (f m).parentId = m.parentId)
    (hcol : ∀ m ∈ nodes, m.collapsed = false → (f m).collapsed = false) :
    ∀ {r c : NodeData} {ch : List NodeData}, VisChain nodes r c ch → r ∈ nodes →
      VisChain (nodes.map f) (f r) (f c) (ch.map f) := by
  intro r c ch h
  induction h with
  | refl => intro _; exact VisChain.refl _
  | step hch hcolp hcm hpar ih =>
    intro hr
    rename_i p c' chx
    refine VisChain.step (ih hr) ?_ (List.mem_map_of_mem f hcm) ?_
    · exact hcol p (visChain_target_mem hch hr) hcolp
    · rw [hpid, hid]
      exact hpar

/-- Claim C8 (amended): adding a child to an existing collapsed parent leaves
the parent un-collapsed afterwards, and the new child is in the Visibility
Resolver's output whenever the parent itself was reachable from a root
through non-collapsed ancestors. -/
theorem C8_add_child_uncollapses (nodes : List NodeData) (newId pid : String)
    (parent : NodeData)
    (hnd : NodupIds nodes) (hlvl : LevelOk nodes)
    (hfind : nodes.find? (fun n => decide (n.id = pid)) = some parent)
    (hcol : parent.collapsed = true)
    (hfreshid : ∀ n ∈ nodes, n.id ≠ newId)
    (hfreshpar : ∀ n ∈ nodes, n.parentId ≠ some newId)
    (hreach : ∃ r ∈ rootsOf nodes, ∃ ch, VisChain nodes r parent ch) :
    (∃ p', (handleAddChild nodes newId pid).find? (fun n => decide (n.id = pid)) = some p' ∧
      p'.collapsed = false) ∧
    newId ∈ (visibleNodes (handleAddChild nodes newId pid)).map NodeData.id := by
  have hpm : parent ∈ nodes := List.mem_of_find?_eq_some hfind
  have hpid2 : parent.id = pid := by
    have := List.find?_some hfind
    simpa using this
  have hpidne : pid ≠ newId := fun h => hfreshid parent hpm (hpid2.trans h)
  have hnnid : (newChildNode newId pid parent).id = newId := rfl
  have hnnpar : (newChildNode newId pid parent).parentId = some pid := rfl
  have hnnmem : newChildNode newId pid parent ∈ nodes ++ [newChildNode newId pid parent] :=
    List.mem_append_right nodes (by simp)
  have hids1 : (nodes ++ [newChildNode newId pid parent]).map NodeData.id =
      nodes.map NodeData.id ++ [newId] := by
    simp [hnnid]
  have hnd1 : NodupIds (nodes ++ [newChildNode newId pid parent]) := by
    unfold NodupIds
    rw [hids1]
    rw [List.nodup_append]
    refine ⟨hnd, List.nodup_singleton newId, ?_⟩
    intro a ha
    obtain ⟨m, hm, rfl⟩ := List.mem_map.mp ha
    simp only [List.mem_singleton]
    exact hfreshid m hm
  have hlvl1 : LevelOk (nodes ++ [newChildNode newId pid parent]) := by
    intro c hc p hp hpar
    rcases List.mem_append.mp hc with hc1 | hc2
    · rcases List.mem_append.mp hp with hp1 | hp2
      · exact hlvl c hc1 p hp1 hpar
      · exfalso
        have hpnn : p = newChildNode newId pid parent := by simpa using hp2
        rw [hpnn, hnnid] at hpar
        exact hfreshpar c hc1 hpar
    · have hcnn : c = newChildNode newId pid parent := by simpa using hc2
      rcases List.mem_append.mp hp with hp1 | hp2
      · rw [hcnn] at hpar ⊢
        rw [hnnpar] at hpar
        have hppid : p.id = pid := by simpa using hpar.symm
        have hpp : p = parent := nodupIds_eq_of_id_eq hnd hp1 hpm (hppid.trans hpid2.symm)
        rw [hpp]
        rfl
      · exfalso
        have hpnn : p = newChildNode newId pid parent := by simpa using hp2
        rw [hcnn, hpnn, hnnid, hnnpar] at hpar
        have : pid = newId := by simpa using hpar
        exact hpidne this
  have hndT : NodupIds ((nodes ++ [newChildNode newId pid parent]).map
      (toggleCollapseById pid)) := nodupIds_map_toggle hnd1 pid
  have hlvlT : LevelOk ((nodes ++ [newChildNode newId pid parent]).map
      (toggleCollapseById pid)) := levelOk_map_toggle hlvl1 pid
  simp only [handleAddChild, hfind, hcol, if_true]
  constructor
  · unfold handleToggleCollapse
    have happ : (nodes ++ [newChildNode newId pid parent]).find?
        (fun n => decide (n.id = pid)) = some parent := by
      rw [List.find?_append, hfind]
      rfl
    rw [computeSmartLayout_find?_id,
      find?_map_of_id_pres _ (toggleCollapseById_id pid) pid,
      computeSmartLayout_find?_id, happ]
    refine ⟨_, rfl, ?_⟩
    rw [applyLayout_collapsed,
      toggleCollapseById_eq pid _ (by rw [applyLayout_id]; exact hpid2)]
    simp only
    rw [applyLayout_collapsed, hcol]
    rfl
  · have hvis : (visibleNodes (handleToggleCollapse
        (computeSmartLayout (nodes ++ [newChildNode newId pid parent])) pid)).map
          NodeData.id =
        (visibleNodes ((nodes ++ [newChildNode newId pid parent]).map
          (toggleCollapseById pid))).map NodeData.id := by
      rw [vis_ids_toggle]
      exact visibleNodes_ids_keyEq
        (keyEq_map_toggle (csl_keyEq (nodes ++ [newChildNode newId pid parent])) pid)
    rw [hvis]
    refine vis_ids_mem.mpr ⟨?_, toggleCollapseById pid (newChildNode newId pid parent),
      List.mem_map_of_mem _ hnnmem, by rw [toggleCollapseById_id]; exact hnnid⟩
    obtain ⟨r, hr, ch, hchain⟩ := hreach
    have hchain1 : VisChain (nodes ++ [newChildNode newId pid parent]) r parent ch :=
      visChain_append hchain
    have hcolf : ∀ m ∈ nodes ++ [newChildNode newId pid parent],
        m.collapsed = false → (toggleCollapseById pid m).collapsed = false := by
      intro m hm hmc
      by_cases hmp : m.id = pid
      · exfalso
        rcases List.mem_append.mp hm with h1 | h2
        · have hmpar : m = parent :=
            nodupIds_eq_of_id_eq hnd h1 hpm (hmp.trans hpid2.symm)
          rw [hmpar, hcol] at hmc
          cases hmc
        · have hmnn : m = newChildNode newId pid parent := by simpa using h2
          rw [hmnn, hnnid] at hmp
          exact hpidne hmp.symm
      · rw [toggleCollapseById_ne pid m hmp]
        exact hmc
    have hrmem : r ∈ nodes ++ [newChildNode newId pid parent] :=
      List.mem_append_left _ (rootsOf_mem hr).1
    have hchainT := chain_map_open (toggleCollapseById_id pid)
      (toggleCollapseById_parentId pid) hcolf hchain1 hrmem
    have hstep : VisChain ((nodes ++ [newChildNode newId pid parent]).map
        (toggleCollapseById pid)) (toggleCollapseById pid r)
        (toggleCollapseById pid (newChildNode newId pid parent))
        (toggleCollapseById pid (newChildNode newId pid parent) ::
          ch.map (toggleCollapseById pid)) := by
      refine VisChain.step hchainT ?_ (List.mem_map_of_mem _ hnnmem) ?_
      · rw [toggleCollapseById_eq pid parent hpid2]
        simp only
        rw [hcol]
        rfl
      · rw [toggleCollapseById_parentId, toggleCollapseById_id, hnnpar, hpid2]
    have hrT : toggleCollapseById pid r ∈ rootsOf ((nodes ++
        [newChildNode newId pid parent]).map (toggleCollapseById pid)) := by
      rw [rootsOf_map_toggle]
      refine List.mem_map_of_mem _ ?_
      unfold rootsOf at hr ⊢
      rw [List.filter_append]
      exact List.mem_append_left _ hr
    exact (visibleIdSet_iff_chain hndT hlvlT).mpr
      ⟨toggleCollapseById pid r, hrT,
        toggleCollapseById pid (newChildNode newId pid parent), _, hstep,
        by rw [toggleCollapseById_id]; exact hnnid⟩

/-- Claim C8, as stated, is falsified when the collapsed parent sits below a
collapsed ancestor: adding a child to the collapsed chapter under a collapsed
root creates the child and un-collapses the chapter, yet the new child is
still absent from the Visibility Resolver's output. -/
theorem C8_counterexample :
    c8Mid.collapsed = true ∧
    (handleAddChild c8cNodes "baru" "p8").map NodeData.id =
      c8cNodes.map NodeData.id ++ ["baru"] ∧
    "baru" ∉ (visibleNodes (handleAddChild c8cNodes "baru" "p8")).map NodeData.id := by
  refine ⟨rfl, ?_, ?_⟩ <;> decide

/-- Witness for C8_add_child_uncollapses: a collapsed chapter directly under
an expanded root. -/
theorem C8_add_child_uncollapses_witness :
    (∃ p', (handleAddChild c8wNodes "baru8" "p8w").find?
        (fun n => decide (n.id = "p8w")) = some p' ∧ p'.collapsed = false) ∧
    "baru8" ∈ (visibleNodes (handleAddChild c8wNodes "baru8" "p8w")).map NodeData.id :=
  C8_add_child_uncollapses c8wNodes "baru8" "p8w" c8wPar
    (by unfold NodupIds; decide) (by unfold LevelOk; decide)
    (by decide) (by decide) (by decide) (by decide)
    ⟨c8wRoot, by decide, [c8wPar],
      VisChain.step (VisChain.refl c8wRoot) (by decide) (by decide) rfl⟩

theorem visChain_head_decomp {nodes : List NodeData} {r c : NodeData} {ch : List NodeData}
    (h : VisChain nodes r c ch) :
    (c = r ∧ ch = []) ∨
      ∃ (d : NodeData) (ch' : List NodeData), d ∈ nodes ∧ d.parentId = some r.id ∧
        r.collapsed = false ∧ VisChain nodes d c ch' ∧ ch = ch' ++ [d] := by
  induction h with
  | refl => exact Or.inl ⟨rfl, rfl⟩
  | step hch hcol hcm hpar ih =>
    rename_i p c' chx
    rcases ih with ⟨rfl, rfl⟩ | ⟨d, ch', hd, hdp, hrc, hdc, rfl⟩
    · exact Or.inr ⟨c', [], hcm, hpar, hcol, VisChain.refl c', rfl⟩
    · exact Or.inr ⟨d, c' :: ch', hd, hdp, hrc, VisChain.step hdc hcol hcm hpar, rfl⟩

theorem layoutNode_anchor_present {nodes : List NodeData} {a : String} {node : NodeData}
    (hf : nodes.find? (fun n => decide (n.id = a)) = some node)
    (fuel : Nat) (x y : Int) (st : LayoutState) :
    (∃ e ∈ ((layoutNode nodes (fuel + 1) a x y st).2).pos, e.1 = a) ∧
    (∃ e ∈ ((layoutNode nodes (fuel + 1) a x y st).2).hts, e.1 = a) := by
  cases hc : node.collapsed with
  | true =>
    rw [layoutNode_succ_collapsed fuel x y st hf hc]
    exact ⟨⟨(a, ⟨x, y⟩), List.mem_cons_self _ _, rfl⟩,
      ⟨(a, getNodeHeight node), List.mem_cons_self _ _, rfl⟩⟩
  | false =>
    by_cases hch : childrenMapGet nodes a = []
    · rw [layoutNode_succ_leaf fuel x y st hf hc hch]
      exact ⟨⟨(a, ⟨x, y⟩), List.mem_cons_self _ _, rfl⟩,
        ⟨(a, getNodeHeight node), List.mem_cons_self _ _, rfl⟩⟩
    · rw [layoutNode_succ_children fuel x y st hf hc hch]
      simp only
      obtain ⟨np, nh, hp, hh, _, _⟩ :=
        layoutFold_writes nodes fuel (x + INDENT_X) (childrenMapGet nodes a)
          (y + getNodeHeight node + GAP_Y, getNodeHeight node + GAP_Y,
           ⟨(a, ⟨x, y⟩) :: st.pos, (a, getNodeHeight node) :: st.hts⟩)
      constructor
      · rw [hp]
        exact ⟨(a, ⟨x, y⟩), List.mem_append_right np (List.mem_cons_self _ _), rfl⟩
      · rw [hh]
        exact ⟨(a, getNodeHeight node), List.mem_append_right nh (List.mem_cons_self _ _),
          rfl⟩

theorem chain_in_layout_keys {nodes : List NodeData} (hnd : NodupIds nodes)
    (hids : IdsNonEmpty nodes) :
    ∀ (fuel : Nat) {r c : NodeData} {ch : List NodeData},
      VisChain nodes r c ch → r ∈ nodes → ch.length < fuel →
      ∀ (x y : Int) (st : LayoutState),
        (∃ e ∈ ((layoutNode nodes fuel r.id x y st).2).pos, e.1 = c.id) ∧
        (∃ e ∈ ((layoutNode nodes fuel r.id x y st).2).hts, e.1 = c.id) := by
  intro fuel
  induction fuel with
  | zero => intro r c ch _ _ hlen; cases hlen
  | succ fuel ih =>
    intro r c ch hchain hr hlen x y st
    have hf : nodes.find? (fun m => decide (m.id = r.id)) = some r :=
      find?_id_of_mem hnd hr
    rcases visChain_head_decomp hchain with ⟨rfl, -⟩ | ⟨d, ch', hd, hdp, hrc, hdc, rfl⟩
    · exact layoutNode_anchor_present hf fuel x y st
    · have hdm : d ∈ childrenMapGet nodes r.id := by
        unfold childrenMapGet
        rw [List.mem_filter]
        refine ⟨hd, ?_⟩
        rw [hdp]
        simp only [Bool.and_eq_true, decide_eq_true_eq]
        refine ⟨?_, trivial⟩
        unfold truthyStr
        simp [hids r hr]
      have hch : ¬ childrenMapGet nodes r.id = [] := by
        intro h0
        rw [h0] at hdm
        cases hdm
      rw [layoutNode_succ_children fuel x y st hf hrc hch]
      simp only
      obtain ⟨cs1, cs2, hsplit⟩ := List.append_of_mem hdm
      rw [hsplit, List.foldl_append, List.foldl_cons]
      have hlen' : ch'.length < fuel := by
        rw [List.length_append] at hlen
        simp at hlen
        omega
      set acc1 := cs1.foldl (layoutStep nodes fuel (x + INDENT_X))
        (y + getNodeHeight r + GAP_Y, getNodeHeight r + GAP_Y,
         ⟨(r.id, ⟨x, y⟩) :: st.pos, (r.id, getNodeHeight r) :: st.hts⟩) with hacc1
      obtain ⟨⟨ep, hep, hepk⟩, ⟨eh, heh, hehk⟩⟩ :=
        ih hdc hd hlen' (x + INDENT_X) acc1.1 acc1.2.2
      obtain ⟨np, nh, hp, hh, _, _⟩ :=
        layoutFold_writes nodes fuel (x + INDENT_X) cs2
          (layoutStep nodes fuel (x + INDENT_X) acc1 d)
      constructor
      · rw [hp]
        refine ⟨ep, List.mem_append_right np ?_, hepk⟩
        show ep ∈ (layoutStep nodes fuel (x + INDENT_X) acc1 d).2.2.pos
        unfold layoutStep
        exact hep
      · rw [hh]
        refine ⟨eh, List.mem_append_right nh ?_, hehk⟩
        show eh ∈ (layoutStep nodes fuel (x + INDENT_X) acc1 d).2.2.hts
        unfold layoutStep
        exact heh

theorem layoutNode_hts_canonical (nodes : List NodeData) :
    ∀ (fuel : Nat) (a : String) (x y : Int) (st : LayoutState),
      HtsCanonical nodes st → HtsCanonical nodes (layoutNode nodes fuel a x y st).2 := by
  intro fuel
  induction fuel with
  | zero => intro a x y st h; exact h
  | succ fuel ih =>
    intro a x y st hst
    cases hf : nodes.find? (fun n => decide (n.id = a)) with
    | none => rw [layoutNode_succ_none fuel x y st hf]; exact hst
    | some node =>
      have hst2 : HtsCanonical nodes
          ⟨(a, ⟨x, y⟩) :: st.pos, (a, getNodeHeight node) :: st.hts⟩ := by
        intro e he
        rcases List.mem_cons.mp he with rfl | he'
        · exact ⟨node, hf, rfl⟩
        · exact hst e he'
      cases hc : node.collapsed with
      | true => rw [layoutNode_succ_collapsed fuel x y st hf hc]; exact hst2
      | false =>
        by_cases hch : childrenMapGet nodes a = []
        · rw [layoutNode_succ_leaf fuel x y st hf hc hch]; exact hst2
        · rw [layoutNode_succ_children fuel x y st hf hc hch]
          simp only
          have aux : ∀ (cs : List NodeData) (acc : Int × Int × LayoutState),
              HtsCanonical nodes acc.2.2 →
              HtsCanonical nodes
                (cs.foldl (layoutStep nodes fuel (x + INDENT_X)) acc).2.2 := by
            intro cs
            induction cs with
            | nil => intro acc h; exact h
            | cons c cs ihc =>
              intro acc h
              rw [List.foldl_cons]
              apply ihc
              show HtsCanonical nodes (layoutStep nodes fuel (x + INDENT_X) acc c).2.2
              unfold layoutStep
              exact ih c.id (x + INDENT_X) acc.1 acc.2.2 h
          exact aux (childrenMapGet nodes a) _ hst2
  
theorem layoutPass_hts_canonical (nodes : List NodeData) :
    HtsCanonical nodes (layoutPass nodes) := by
  rw [layoutPass_eq_fold]
  have aux : ∀ (rs : List NodeData) (st : LayoutState), HtsCanonical nodes st →
      HtsCanonical nodes (rs.foldl (layoutRootStep nodes) st) := by
    intro rs
    induction rs with
    | nil => intro st h; exact h
    | cons r rs ihr =>
      intro st h
      rw [List.foldl_cons]
      apply ihr
      unfold layoutRootStep
      exact layoutNode_hts_canonical nodes nodes.length r.id r.position.x r.position.y st h
  apply aux
  intro e he
  cases he

theorem foldRoots_keys_mono (nodes : List NodeData) :
    ∀ (rs : List NodeData) (st : LayoutState) {e1 : String × Position}
      {e2 : String × Int}, e1 ∈ st.pos → e2 ∈ st.hts →
      e1 ∈ (rs.foldl (layoutRootStep nodes) st).pos ∧
        e2 ∈ (rs.foldl (layoutRootStep nodes) st).hts := by
  intro rs
  induction rs with
  | nil => intro st e1 e2 h1 h2; exact ⟨h1, h2⟩
  | cons r rs ihr =>
    intro st e1 e2 h1 h2
    rw [List.foldl_cons]
    obtain ⟨np, nh, hp, hh, _, _⟩ :=
      layoutNode_writes nodes nodes.length r.id r.position.x r.position.y st
    refine ihr (layoutRootStep nodes st r) ?_ ?_
    · show e1 ∈ (layoutNode nodes nodes.length r.id r.position.x r.position.y st).2.pos
      rw [hp]
      exact List.mem_append_right np h1
    · show e2 ∈ (layoutNode nodes nodes.length r.id r.position.x r.position.y st).2.hts
      rw [hh]
      exact List.mem_append_right nh h2

theorem lookupKV_mem {α : Type} {l : List (String × α)} {k : String} {v : α}
    (h : lookupKV l k = some v) : (k, v) ∈ l := by
  unfold lookupKV at h
  cases hf : l.find? (fun e => decide (e.1 = k)) with
  | none => rw [hf] at h; cases h
  | some e =>
    rw [hf] at h
    have hk : e.1 = k := by
      have := List.find?_some hf
      simpa using this
    have hv : v = e.2 := by
      simpa using h.symm
    have : (k, v) = e := by
      rw [hv, ← hk]
    rw [this]
    exact List.mem_of_find?_eq_some hf

theorem chain_in_layoutPass_keys {nodes : List NodeData} (hnd : NodupIds nodes)
    (hlvl : LevelOk nodes) (hids : IdsNonEmpty nodes) {r c : NodeData}
    {ch : List NodeData} (hr : r ∈ rootsOf nodes) (hchain : VisChain nodes r c ch) :
    (lookupKV (layoutPass nodes).pos c.id).isSome = true ∧
    (lookupKV (layoutPass nodes).hts c.id).isSome = true := by
  have hrm : r ∈ nodes := (rootsOf_mem hr).1
  have hlen : ch.length < nodes.length := by
    have := visChain_length_bound hlvl hchain hrm
    omega
  obtain ⟨rs1, rs2, hsplit⟩ := List.append_of_mem hr
  rw [layoutPass_eq_fold, hsplit, List.foldl_append, List.foldl_cons]
  obtain ⟨⟨ep, hep, hepk⟩, ⟨eh, heh, hehk⟩⟩ :=
    chain_in_layout_keys hnd hids nodes.length hchain hrm hlen r.position.x r.position.y
      (rs1.foldl (layoutRootStep nodes) emptyLayoutState)
  obtain ⟨hp2, hh2⟩ := foldRoots_keys_mono nodes rs2
    (layoutRootStep nodes (rs1.foldl (layoutRootStep nodes) emptyLayoutState) r)
    hep heh
  constructor
  · rw [lookupKV_isSome_iff]
    exact ⟨ep, hp2, hepk⟩
  · rw [lookupKV_isSome_iff]
    exact ⟨eh, hh2, hehk⟩

/-- Claim C10: on a self-consistent forest, a collapsed node all of whose
ancestors are non-collapsed (witnessed by a visibility chain from a root) is
itself in the Visibility Resolver's output, and the Layout Engine gives it a
freshly computed position and height; collapsing excludes only its strict
descendants, never the node itself. -/
theorem C10_collapsed_node_itself (nodes : List NodeData) (hnd : NodupIds nodes)
    (hlvl : LevelOk nodes) (hids : IdsNonEmpty nodes)
    {n r : NodeData} {ch : List NodeData}
    (hn : n ∈ nodes) (_hncol : n.collapsed = true)
    (hr : r ∈ rootsOf nodes) (hchain : VisChain nodes r n ch) :
    n ∈ visibleNodes nodes ∧
    ∃ p : Position, (computeSmartLayout nodes).find? (fun m => decide (m.id = n.id)) =
      some { n with position := p, height := some (getNodeHeight n) } := by
  constructor
  · unfold visibleNodes
    rw [List.mem_filter]
    refine ⟨hn, ?_⟩
    simp only [decide_eq_true_eq]
    exact (visibleIdSet_iff_chain hnd hlvl).mpr ⟨r, hr, n, ch, hchain, rfl⟩
  · have hkeys := chain_in_layoutPass_keys hnd hlvl hids hr hchain
    obtain ⟨p, hp⟩ := Option.isSome_iff_exists.mp hkeys.1
    obtain ⟨h, hh⟩ := Option.isSome_iff_exists.mp hkeys.2
    have hfn : nodes.find? (fun m => decide (m.id = n.id)) = some n :=
      find?_id_of_mem hnd hn
    obtain ⟨m, hfm, hmval⟩ := layoutPass_hts_canonical nodes (n.id, h) (lookupKV_mem hh)
    rw [hfn] at hfm
    have hmn : m = n := by
      have := hfm
      simp only [Option.some.injEq] at this
      exact this.symm
    refine ⟨p, ?_⟩
    rw [computeSmartLayout_find?_id, hfn]
    show some (applyLayout (layoutPass nodes) n) = _
    unfold applyLayout
    rw [hp, hh]
    have hval : h = getNodeHeight n := by rw [← hmn]; exact hmval
    rw [hval]

/-- Witness for C10_collapsed_node_itself: a collapsed chapter directly under
an expanded root is visible and freshly laid out. -/
theorem C10_collapsed_node_itself_witness :
    c10Kid ∈ visibleNodes c10Nodes ∧
    ∃ p : Position, (computeSmartLayout c10Nodes).find?
        (fun m => decide (m.id = c10Kid.id)) =
      some { c10Kid with position := p, height := some (getNodeHeight c10Kid) } :=
  C10_collapsed_node_itself c10Nodes (by unfold NodupIds; decide)
    (by unfold LevelOk; decide) (by unfold IdsNonEmpty; decide)
    (by decide) (by decide) (by decide)
    (VisChain.step (VisChain.refl c10Root) (by decide) (by decide) rfl)

theorem descendant_mono {L L' : List NodeData} (hsub : ∀ z ∈ L', z ∈ L) {a : String}
    {m : NodeData} (h : Descendant L' a m) : Descendant L a m := by
  induction h with
  | base hm hp => exact Descendant.base (hsub _ hm) hp
  | step hd hm hp ih => exact Descendant.step ih (hsub _ hm) hp

theorem descendant_level {L : List NodeData} (hlvl : LevelOk L) {a : String}
    {q : NodeData} (h : Descendant L a q) :
    ∀ na ∈ L, na.id = a → na.level < q.level := by
  induction h with
  | base hm hp =>
    intro na hna hnaid
    rename_i c
    have := hlvl c hm na hna (by rw [hp, hnaid])
    omega
  | step hd hm hp ih =>
    intro na hna hnaid
    rename_i p c
    have hpl := hlvl c hm p (descendant_mem hd) hp
    have := ih na hna hnaid
    omega

theorem descendant_trans_root {L : List NodeData} {x : String} {c : NodeData}
    (hc : c ∈ L) (hcp : c.parentId = some x) {m : NodeData}
    (h : Descendant L c.id m) : Descendant L x m := by
  induction h with
  | base hm hp => exact Descendant.step (Descendant.base hc hcp) hm hp
  | step hd hm hp ih => exact Descendant.step ih hm hp

theorem descendant_uc {L : List NodeData} (hnd : NodupIds L) {a b : String}
    {q : NodeData} (ha : Descendant L a q) :
    ∀ (hb : Descendant L b q), a = b ∨
      (∃ na ∈ L, na.id = a ∧ Descendant L b na) ∨
      (∃ nb ∈ L, nb.id = b ∧ Descendant L a nb) := by
  induction ha with
  | base hm hp =>
    intro hb
    cases hb with
    | base hm2 hp2 =>
      left
      rw [hp] at hp2
      simpa using hp2
    | step hd2 hm2 hp2 =>
      rw [hp] at hp2
      refine Or.inr (Or.inl ⟨_, descendant_mem hd2, ?_, hd2⟩)
      simpa using hp2.symm
  | step hd hm hp ih =>
    intro hb
    cases hb with
    | base hm2 hp2 =>
      rw [hp] at hp2
      refine Or.inr (Or.inr ⟨_, descendant_mem hd, ?_, hd⟩)
      simpa using hp2
    | step hd2 hm2 hp2 =>
      rw [hp] at hp2
      have heq := nodupIds_eq_of_id_eq hnd (descendant_mem hd2) (descendant_mem hd)
        (by simpa using hp2.symm)
      rw [heq] at hd2
      exact ih hd2

theorem deleteRec_sublist : ∀ (fuel : Nat) (x : String) (L : List NodeData),
    List.Sublist (deleteRec fuel x L) L := by
  intro fuel
  induction fuel with
  | zero => intro x L; exact List.Sublist.refl L
  | succ fuel ih =>
    intro x L
    show List.Sublist ((visChildren L x).foldl (fun rem child => deleteRec fuel child.id rem)
      (L.filter (fun n => decide (n.id ≠ x)))) L
    have aux : ∀ (cs : List NodeData) (R : List NodeData),
        List.Sublist (cs.foldl (fun rem child => deleteRec fuel child.id rem) R) R := by
      intro cs
      induction cs with
      | nil => intro R; exact List.Sublist.refl R
      | cons c cs ihc =>
        intro R
        rw [List.foldl_cons]
        exact (ihc (deleteRec fuel c.id R)).trans (ih c.id R)
    exact (aux (visChildren L x) _).trans (List.filter_sublist L)

theorem nodupIds_sublist {L L' : List NodeData} (h : List.Sublist L' L) (hnd : NodupIds L) :
    NodupIds L' :=
  List.Nodup.sublist (List.Sublist.map NodeData.id h) hnd

theorem levelOk_subset {L L' : List NodeData} (h : ∀ z ∈ L', z ∈ L)
    (hlvl : LevelOk L) : LevelOk L' :=
  fun c hc p hp hpar => hlvl c (h c hc) p (h p hp) hpar

theorem descendant_filter {L : List NodeData} (p : NodeData → Bool) {a : String}
    {m : NodeData} (h : Descendant L a m) (hm : p m = true)
    (hall : ∀ q, Descendant L a q → p q = true) :
    Descendant (L.filter p) a m := by
  induction h with
  | base hmm hpp => exact Descendant.base (List.mem_filter.mpr ⟨hmm, hm⟩) hpp
  | step hd hmm hpp ih =>
    rename_i w c
    have hw : p w = true := hall w hd
    exact Descendant.step (ih hw) (List.mem_filter.mpr ⟨hmm, hm⟩) hpp

theorem descendant_decomp {L : List NodeData} {x : String} {m : NodeData}
    (h : Descendant L x m) :
    ∃ c ∈ visChildren L x, m = c ∨ Descendant L c.id m := by
  induction h with
  | base hm hp => exact ⟨_, visChildren_mem.mpr ⟨hm, hp⟩, Or.inl rfl⟩
  | step hd hm hp ih =>
    obtain ⟨c, hc, hqc⟩ := ih
    rcases hqc with heq | hdc
    · rw [heq] at hp
      exact ⟨c, hc, Or.inr (Descendant.base hm hp)⟩
    · exact ⟨c, hc, Or.inr (Descendant.step hdc hm hp)⟩

theorem descendant_restore {R R₁ : List NodeData} (hnd : NodupIds R)
    {gid : String} {gn : NodeData}
    (hchar : ∀ z, z ∈ R₁ ↔ (z ∈ R ∧ z.id ≠ gid ∧ ¬ Descendant R gid z))
    (hg : gn ∈ R) (hgid : gn.id = gid)
    {d : NodeData} (hd : d ∈ R) (hdne : d.id ≠ gid) (hdnd : ¬ Descendant R gid d)
    (hnotdesc : ¬ Descendant R d.id gn)
    {m : NodeData} (h : Descendant R d.id m) : m ∈ R₁ → Descendant R₁ d.id m := by
  induction h with
  | base hmm hp =>
    intro hm
    exact Descendant.base hm hp
  | step hdq hmm hp ih =>
    intro hm
    rename_i q mm
    have hqmem : q ∈ R := descendant_mem hdq
    have hqne : q.id ≠ gid := by
      intro he
      have hqg : q = gn := nodupIds_eq_of_id_eq hnd hqmem hg (he.trans hgid.symm)
      rw [hqg] at hdq
      exact hnotdesc hdq
    have hqnd : ¬ Descendant R gid q := by
      intro hq2
      rcases descendant_uc hnd hdq hq2 with heq | ⟨na, hna, hnaid, hna2⟩ |
        ⟨nb, hnb, hnbid, hnb2⟩
      · exact hdne heq
      · have hnad : na = d := nodupIds_eq_of_id_eq hnd hna hd hnaid
        rw [hnad] at hna2
        exact hdnd hna2
      · have hnbg : nb = gn := nodupIds_eq_of_id_eq hnd hnb hg (hnbid.trans hgid.symm)
        rw [hnbg] at hnb2
        exact hnotdesc hnb2
    exact Descendant.step (ih ((hchar q).mpr ⟨hqmem, hqne, hqnd⟩)) hm hp

theorem deleteFold_char (f : Nat)
    (IH : ∀ (x : String) (L : List NodeData), NodupIds L → LevelOk L → L.length ≤ f →
      (∃ nx ∈ L, nx.id = x) →
      ∀ m, m ∈ deleteRec f x L ↔ (m ∈ L ∧ m.id ≠ x ∧ ¬ Descendant L x m)) :
    ∀ (cs R : List NodeData), NodupIds R → LevelOk R → R.length ≤ f →
      (∀ c ∈ cs, c ∈ R) →
      List.Pairwise (fun a b =>
        a.id ≠ b.id ∧ ¬ Descendant R a.id b ∧ ¬ Descendant R b.id a) cs →
      ∀ m, m ∈ cs.foldl (fun rem child => deleteRec f child.id rem) R ↔
        (m ∈ R ∧ ∀ c ∈ cs, m.id ≠ c.id ∧ ¬ Descendant R c.id m) := by
  intro cs
  induction cs with
  | nil =>
    intro R _ _ _ _ _ m
    simp
  | cons c cs ihc =>
    intro R hndR hlvlR hlenR hcs hpair m
    rw [List.foldl_cons]
    obtain ⟨hphead, hptail⟩ := List.pairwise_cons.mp hpair
    have hcR : c ∈ R := hcs c (List.mem_cons_self c cs)
    have CHAR1 : ∀ z, z ∈ deleteRec f c.id R ↔
        (z ∈ R ∧ z.id ≠ c.id ∧ ¬ Descendant R c.id z) :=
      IH c.id R hndR hlvlR hlenR ⟨c, hcR, rfl⟩
    have hsub1 : List.Sublist (deleteRec f c.id R) R := deleteRec_sublist f c.id R
    have hnd1 : NodupIds (deleteRec f c.id R) := nodupIds_sublist hsub1 hndR
    have hlvl1 : LevelOk (deleteRec f c.id R) :=
      levelOk_subset (fun z hz => hsub1.subset hz) hlvlR
    have hlen1 : (deleteRec f c.id R).length ≤ f :=
      le_trans hsub1.length_le hlenR
    have hcs1 : ∀ d ∈ cs, d ∈ deleteRec f c.id R := by
      intro d hd
      have hrel := hphead d hd
      exact (CHAR1 d).mpr ⟨hcs d (List.mem_cons_of_mem c hd),
        fun he => hrel.1 he.symm, hrel.2.1⟩
    have hpair1 : List.Pairwise (fun a b =>
        a.id ≠ b.id ∧ ¬ Descendant (deleteRec f c.id R) a.id b ∧
          ¬ Descendant (deleteRec f c.id R) b.id a) cs := by
      refine hptail.imp ?_
      intro a b hrel
      exact ⟨hrel.1,
        fun h => hrel.2.1 (descendant_mono (fun z hz => hsub1.subset hz) h),
        fun h => hrel.2.2 (descendant_mono (fun z hz => hsub1.subset hz) h)⟩
    rw [ihc (deleteRec f c.id R) hnd1 hlvl1 hlen1 hcs1 hpair1 m]
    constructor
    · rintro ⟨hm1, hall⟩
      obtain ⟨hmR, hmne, hmnd⟩ := (CHAR1 m).mp hm1
      refine ⟨hmR, ?_⟩
      intro e he
      rcases List.mem_cons.mp he with rfl | he'
      · exact ⟨hmne, hmnd⟩
      · refine ⟨(hall e he').1, ?_⟩
        intro hdesc
        exact (hall e he').2
          (descendant_restore hndR CHAR1 hcR rfl
            (hcs e (List.mem_cons_of_mem c he'))
            (fun h2 => (hphead e he').1 h2.symm)
            (hphead e he').2.1 (hphead e he').2.2 hdesc hm1)
    · rintro ⟨hmR, hall⟩
      have hhead := hall c (List.mem_cons_self c cs)
      have hm1 : m ∈ deleteRec f c.id R := (CHAR1 m).mpr ⟨hmR, hhead.1, hhead.2⟩
      refine ⟨hm1, ?_⟩
      intro e he'
      refine ⟨(hall e (List.mem_cons_of_mem c he')).1, ?_⟩
      intro hdesc
      exact (hall e (List.mem_cons_of_mem c he')).2
        (descendant_mono (fun z hz => hsub1.subset hz) hdesc)

theorem deleteRec_char : ∀ (f : Nat) (x : String) (L : List NodeData),
    NodupIds L → LevelOk L → L.length ≤ f →
    (∃ nx ∈ L, nx.id = x) →
    ∀ m, m ∈ deleteRec f x L ↔ (m ∈ L ∧ m.id ≠ x ∧ ¬ Descendant L x m) := by
  intro f
  induction f with
  | zero =>
    intro x L _ _ hlen hex
    obtain ⟨nx, hnxm, _⟩ := hex
    rw [List.length_eq_zero.mp (Nat.le_zero.mp hlen)] at hnxm
    cases hnxm
  | succ f ih =>
    intro x L hnd hlvl hlen hex m
    obtain ⟨nx, hnxm, hnxid⟩ := hex
    have hchild_ne : ∀ c ∈ visChildren L x, c ∈ L ∧ c.parentId = some x ∧ c.id ≠ x := by
      intro c hc
      obtain ⟨hcL, hcp⟩ := visChildren_mem.mp hc
      refine ⟨hcL, hcp, ?_⟩
      intro hcid
      have hceq : c = nx := nodupIds_eq_of_id_eq hnd hcL hnxm (hcid.trans hnxid.symm)
      have := hlvl nx hnxm nx hnxm (by rw [← hceq, hcp, hcid])
      omega
    have hremmem : ∀ z : NodeData, z ∈ L.filter (fun n => decide (n.id ≠ x)) ↔
        (z ∈ L ∧ z.id ≠ x) := by
      intro z
      simp [List.mem_filter]
    have hlt : (L.filter (fun n => decide (n.id ≠ x))).length < L.length := by
      apply List.length_filter_lt_length_iff_exists.mpr
      exact ⟨nx, hnxm, by simp [hnxid]⟩
    have hpairids : List.Pairwise (fun a b : NodeData => a.id ≠ b.id) (visChildren L x) :=
      List.pairwise_map.mp (nodupIds_sublist (List.filter_sublist L) hnd)
    have hnodesc : ∀ a ∈ visChildren L x, ∀ b ∈ visChildren L x,
        ¬ Descendant (L.filter (fun n => decide (n.id ≠ x))) a.id b := by
      intro a ha b hb hdesc
      obtain ⟨haL, hap, hane⟩ := hchild_ne a ha
      obtain ⟨hbL, hbp, hbne⟩ := hchild_ne b hb
      cases hdesc with
      | base hm hp =>
        rw [hbp] at hp
        exact hane (Option.some.inj hp).symm
      | step hd hm hp =>
        have hpne := ((hremmem _).mp (descendant_mem hd)).2
        rw [hbp] at hp
        exact hpne (Option.some.inj hp).symm
    have hpair : List.Pairwise (fun a b : NodeData => a.id ≠ b.id ∧
        ¬ Descendant (L.filter (fun n => decide (n.id ≠ x))) a.id b ∧
        ¬ Descendant (L.filter (fun n => decide (n.id ≠ x))) b.id a) (visChildren L x) := by
      refine List.Pairwise.imp_of_mem ?_ hpairids
      intro a b ha hb hne
      exact ⟨hne, hnodesc a ha b hb, hnodesc b hb a ha⟩
    have hcsr : ∀ c ∈ visChildren L x, c ∈ L.filter (fun n => decide (n.id ≠ x)) := by
      intro c hc
      obtain ⟨hcL, _, hcne⟩ := hchild_ne c hc
      exact (hremmem c).mpr ⟨hcL, hcne⟩
    have key := deleteFold_char f ih (visChildren L x)
      (L.filter (fun n => decide (n.id ≠ x)))
      (nodupIds_sublist (List.filter_sublist L) hnd)
      (levelOk_subset (fun z hz => (List.filter_sublist L).subset hz) hlvl)
      (by omega) hcsr hpair m
    show m ∈ (visChildren L x).foldl (fun rem child => deleteRec f child.id rem)
      (L.filter (fun n => decide (n.id ≠ x))) ↔ _
    rw [key]
    constructor
    · rintro ⟨hm1, hall⟩
      obtain ⟨hmL, hmne⟩ := (hremmem m).mp hm1
      refine ⟨hmL, hmne, ?_⟩
      intro hdm
      obtain ⟨c, hc, hmc⟩ := descendant_decomp hdm
      rcases hmc with heq | hdc
      · exact (hall c hc).1 (by rw [heq])
      · refine (hall c hc).2 ?_
        refine descendant_filter _ hdc (by simp [hmne]) ?_
        intro q hq
        simp only [decide_eq_true_eq]
        intro hqid
        obtain ⟨hcL, hcp, hcne⟩ := hchild_ne c hc
        have hqeq : q = nx := nodupIds_eq_of_id_eq hnd (descendant_mem hq) hnxm
          (hqid.trans hnxid.symm)
        have hclt := descendant_level hlvl hq c hcL rfl
        have hclev := hlvl c hcL nx hnxm (by rw [hcp, hnxid])
        rw [hqeq] at hclt
        omega
    · rintro ⟨hmL, hmne, hmnd⟩
      refine ⟨(hremmem m).mpr ⟨hmL, hmne⟩, ?_⟩
      intro c hc
      obtain ⟨hcL, hcp, hcne⟩ := hchild_ne c hc
      constructor
      · intro hid
        have hmc : m = c := nodupIds_eq_of_id_eq hnd hmL hcL hid
        exact hmnd (by rw [hmc]; exact Descendant.base hcL hcp)
      · intro hdesc
        exact hmnd (descendant_trans_root hcL hcp
          (descendant_mono (fun z hz => (List.filter_sublist L).subset hz) hdesc))

/-- **C4.** On a self-consistent, orphan-free node set, deleting an existing
id removes by id exactly that node and its transitive descendants (every
other node survives, by id), and the resulting node set is again
orphan-free. -/
theorem C4_delete_cascade (nodes : List NodeData) (x : String)
    (hnd : NodupIds nodes) (hlvl : LevelOk nodes)
    (horph : orphanFree nodes) (hex : ∃ nx ∈ nodes, nx.id = x) :
    (∀ m ∈ nodes, ((∃ m' ∈ handleDelete nodes x, m'.id = m.id) ↔
      (m.id ≠ x ∧ ¬ Descendant nodes x m))) ∧
    orphanFree (handleDelete nodes x) := by
  have CHAR := deleteRec_char nodes.length x nodes hnd hlvl (le_refl _) hex
  have hmem : ∀ m', m' ∈ handleDelete nodes x ↔
      ∃ z ∈ deleteRec nodes.length x nodes,
        m' = applyLayout (layoutPass (deleteRec nodes.length x nodes)) z := by
    intro m'
    show m' ∈ (deleteRec nodes.length x nodes).map
      (applyLayout (layoutPass (deleteRec nodes.length x nodes))) ↔ _
    rw [List.mem_map]
    constructor
    · rintro ⟨z, hz, heq⟩
      exact ⟨z, hz, heq.symm⟩
    · rintro ⟨z, hz, heq⟩
      exact ⟨z, hz, heq.symm⟩
  constructor
  · intro m hm
    constructor
    · rintro ⟨m', hm', hid⟩
      obtain ⟨z, hz, heq⟩ := (hmem m').mp hm'
      obtain ⟨hzn, hzne, hznd⟩ := (CHAR z).mp hz
      have hzid : z.id = m.id := by rw [← hid, heq, applyLayout_id]
      have hzm : z = m := nodupIds_eq_of_id_eq hnd hzn hm hzid
      rw [← hzm]
      exact ⟨hzne, hznd⟩
    · rintro ⟨hne, hnd2⟩
      have hzD : m ∈ deleteRec nodes.length x nodes := (CHAR m).mpr ⟨hm, hne, hnd2⟩
      exact ⟨applyLayout (layoutPass (deleteRec nodes.length x nodes)) m,
        (hmem _).mpr ⟨m, hzD, rfl⟩, applyLayout_id _ m⟩
  · intro m' hm' hcond
    obtain ⟨z, hz, heq⟩ := (hmem m').mp hm'
    obtain ⟨hzn, hzne, hznd⟩ := (CHAR z).mp hz
    have hty : m'.nodeType = z.nodeType := by rw [heq, applyLayout_nodeType]
    have hpid : m'.parentId = z.parentId := by rw [heq, applyLayout_parentId]
    rw [hty, hpid] at hcond
    obtain ⟨p, hpn, hpe⟩ := horph z hzn hcond
    have hpne : p.id ≠ x := by
      intro hpx
      exact hznd (Descendant.base hzn (by rw [hpe, hpx]))
    have hpnd : ¬ Descendant nodes x p := by
      intro hp2
      exact hznd (Descendant.step hp2 hzn hpe)
    have hpD : p ∈ deleteRec nodes.length x nodes := (CHAR p).mpr ⟨hpn, hpne, hpnd⟩
    refine ⟨applyLayout (layoutPass (deleteRec nodes.length x nodes)) p,
      (hmem _).mpr ⟨p, hpD, rfl⟩, ?_⟩
    rw [hpid, hpe, applyLayout_id]

theorem C4_delete_cascade_witness :
    (∀ m ∈ c4Nodes, ((∃ m' ∈ handleDelete c4Nodes "k4", m'.id = m.id) ↔
      (m.id ≠ "k4" ∧ ¬ Descendant c4Nodes "k4" m))) ∧
    orphanFree (handleDelete c4Nodes "k4") :=
  C4_delete_cascade c4Nodes "k4" (by unfold NodupIds; decide)
    (by unfold LevelOk; decide) (by unfold orphanFree; decide)
    ⟨c4Kid, by decide, rfl⟩
